import Mathlib

/-!
# Verification of the `codec2_simplified` WAV conversion pipeline

A shallow embedding of the container parsing + format-normalization pipeline of
`src/tools/codec2_encode_enhanced.c` (the "enhanced WAV utilities"), the write
path (`wav_enhanced_open_write` / `wav_enhanced_write_samples` /
`wav_enhanced_close`) and the decode drive loop of `codec2_decode_enhanced`.

Modelling conventions:
* A file is a `List Nat` of bytes (each `< 256`; they come from C `uint8_t`).
* C `double` arithmetic of the resampler is modelled with exact rationals `ℚ`.
  Every divergence claim proved below is witnessed at dyadic values
  (ratios such as 3/2 or 5/4) where IEEE doubles are exact, so the rational
  model and the C doubles agree on the witnesses.
* C `int` division truncates toward zero: modelled by `Int.tdiv`.
* C `(short)` casts on `int` wrap two's-complement: modelled by `toInt16`.
* C `>>` on a negative signed int is an arithmetic shift (gcc): `Int.fdiv _ (2^n)`.
* fallible operations (`wav_enhanced_open_read`) return `Option`.
-/

namespace Codec2Wav

/-- C cast of an (in-range) `double` to an integer type: truncation toward zero. -/
def ratTrunc (q : ℚ) : Int := if 0 ≤ q then ⌊q⌋ else ⌈q⌉

/-- Wrap an integer to the value range of a C `short` (two's complement), the
effect of the `(short)` casts in `convert_to_16bit` / `resample_to_8khz`. -/
def toInt16 (x : Int) : Int := (x + 32768) % 65536 - 32768

/-- Sign extension of a `w`-bit little-endian unsigned value to an integer. -/
def sext (w : Nat) (v : Nat) : Int := if v < 2 ^ (w - 1) then (v : Int) else (v : Int) - 2 ^ w

/-- Arithmetic shift right by `n` bits (gcc semantics of `>>` on signed int). -/
def asr (x : Int) (n : Nat) : Int := Int.fdiv x (2 ^ n)

/-- Little-endian 16-bit read at byte offset `p` (out-of-range bytes read as 0). -/
def le16At (bs : List Nat) (p : Nat) : Nat := bs.getD p 0 + 256 * bs.getD (p+1) 0

/-- Little-endian 32-bit read at byte offset `p`. -/
def le32At (bs : List Nat) (p : Nat) : Nat :=
  bs.getD p 0 + 256 * bs.getD (p+1) 0 + 65536 * bs.getD (p+2) 0 + 16777216 * bs.getD (p+3) 0

/-- The two bytes `write_le16` emits. -/
def le16bytes (v : Nat) : List Nat := [v % 256, v / 256 % 256]

/-- The four bytes `write_le32` emits. -/
def le32bytes (v : Nat) : List Nat := [v % 256, v / 256 % 256, v / 65536 % 256, v / 16777216 % 256]

/-- The two little-endian bytes `fwrite` emits for one C `short` sample value. -/
def shortBytes (s : Int) : List Nat := le16bytes (s % 65536).toNat

/-! ## Basic numeric lemmas -/

theorem ratTrunc_intCast (n : Int) : ratTrunc (n : ℚ) = n := by
  unfold ratTrunc
  split <;> simp

theorem ratTrunc_nonneg_eq_floor {q : ℚ} (h : 0 ≤ q) : ratTrunc q = ⌊q⌋ := by
  simp [ratTrunc, h]

/-- C integer division (truncation toward zero) is the spec's
"arithmetic mean/quotient truncated toward zero" on exact rationals. -/
theorem tdiv_eq_ratTrunc (s : Int) (c : Nat) (hc : 0 < c) :
    Int.tdiv s (c : Int) = ratTrunc ((s : ℚ) / (c : ℚ)) := by
  rcases le_or_lt 0 s with hs | hs
  · rw [ratTrunc_nonneg_eq_floor (by positivity)]
    rw [Rat.floor_intCast_div_natCast]
    exact Int.tdiv_eq_ediv hs (by positivity)
  · have hq : ((s : ℚ) / (c : ℚ)) < 0 := by
      apply div_neg_of_neg_of_pos
      · exact_mod_cast hs
      · exact_mod_cast hc
    rw [ratTrunc, if_neg (not_le.mpr hq)]
    have hceil : ⌈(s : ℚ) / (c : ℚ)⌉ = -⌊((-s : Int) : ℚ) / (c : ℚ)⌋ := by
      rw [show ((s : ℚ) / (c : ℚ)) = -(((-s : Int) : ℚ) / (c : ℚ)) by push_cast; ring]
      rw [Int.ceil_neg]
    rw [hceil, Rat.floor_intCast_div_natCast]
    have h1 : Int.tdiv s (c : Int) = -Int.tdiv (-s) (c : Int) := by
      rw [Int.neg_tdiv, neg_neg]
    rw [h1, Int.tdiv_eq_ediv (by omega) (by positivity)]

theorem ratTrunc_bounds_of_bounds {q : ℚ} {lo hi : Int} (hlo : (lo : ℚ) ≤ q) (hhi : q ≤ (hi : ℚ)) :
    lo ≤ ratTrunc q ∧ ratTrunc q ≤ hi := by
  unfold ratTrunc
  split_ifs with h
  · constructor
    · calc lo = ⌊(lo : ℚ)⌋ := by simp
        _ ≤ ⌊q⌋ := Int.floor_le_floor hlo
    · have : ⌊q⌋ ≤ ⌊(hi : ℚ)⌋ := Int.floor_le_floor hhi
      simpa using this
  · constructor
    · have : ⌈(lo : ℚ)⌉ ≤ ⌈q⌉ := Int.ceil_le_ceil hlo
      simpa using this
    · calc ⌈q⌉ ≤ ⌈(hi : ℚ)⌉ := Int.ceil_le_ceil hhi
        _ = hi := by simp

theorem toInt16_eq_self {x : Int} (hlo : -32768 ≤ x) (hhi : x ≤ 32767) : toInt16 x = x := by
  unfold toInt16
  omega

/-! ## Sample Decoder: `convert_to_16bit` (codec2_encode_enhanced.c:325-382)

The C function receives a raw byte buffer (`void* input`), a sample (frame)
count, the declared bit depth and channel count, and writes one mono 16-bit
sample per frame.  We model the buffer as the byte list `raw`. -/

/-- 8-bit branch, one channel load: `(in8[i*channels+ch] - 128) * 256`. -/
def chanVal8 (raw : List Nat) (channels i ch : Nat) : Int :=
  ((raw.getD (i * channels + ch) 0 : Int) - 128) * 256

/-- 16-bit branch, one channel load: the little-endian signed `short` at
element index `i*channels+ch` (byte offset twice that). -/
def chanVal16 (raw : List Nat) (channels i ch : Nat) : Int :=
  sext 16 (le16At raw (2 * (i * channels + ch)))

/-- 24-bit branch, one channel load: three little-endian bytes, sign extended
(`if (sample & 0x800000) sample |= 0xFF000000`), then `sample >> 8`. -/
def chanVal24 (raw : List Nat) (channels i ch : Nat) : Int :=
  asr (sext 24 (raw.getD ((i * channels + ch) * 3) 0
      + 256 * raw.getD ((i * channels + ch) * 3 + 1) 0
      + 65536 * raw.getD ((i * channels + ch) * 3 + 2) 0)) 8

/-- 32-bit branch, one channel load: little-endian signed `int32`, `>> 16`. -/
def chanVal32 (raw : List Nat) (channels i ch : Nat) : Int :=
  asr (sext 32 (le32At raw (4 * (i * channels + ch)))) 16

/-- One output sample: `output[i] = (short)(sum / channels)` where `sum`
accumulates the per-channel loads (C `int` division truncates toward zero). -/
def frameAvg (cv : Nat → Int) (channels : Nat) : Int :=
  toInt16 (Int.tdiv (((List.range channels).map cv).sum) (channels : Int))

/-- `convert_to_16bit`: switch on the declared bit depth; 8/16/24/32 decode and
average across channels; any other depth writes `samples` zeros (silence) —
the `default:` branch of the C switch. -/
def convert_to_16bit (input_bits channels : Nat) (raw : List Nat) (samples : Nat) : List Int :=
  if input_bits = 8 then
    (List.range samples).map (fun i => frameAvg (chanVal8 raw channels i) channels)
  else if input_bits = 16 then
    (List.range samples).map (fun i => frameAvg (chanVal16 raw channels i) channels)
  else if input_bits = 24 then
    (List.range samples).map (fun i => frameAvg (chanVal24 raw channels i) channels)
  else if input_bits = 32 then
    (List.range samples).map (fun i => frameAvg (chanVal32 raw channels i) channels)
  else
    List.replicate samples 0

/-- `stereo_to_mono` (codec2_encode_enhanced.c:318-322):
`mono[i] = (short)((stereo[2i] + stereo[2i+1]) / 2)`. -/
def stereo_to_mono (stereo : List Int) (samples : Nat) : List Int :=
  (List.range samples).map (fun i =>
    toInt16 (Int.tdiv (stereo.getD (i * 2) 0 + stereo.getD (i * 2 + 1) 0) 2))

/-- Modelled from the spec: "Downmix policy: arithmetic mean of all channels,
truncated toward zero" — the exact-rational mean of the channel values,
truncated toward zero. -/
def meanTruncTowardZero (vs : List Int) : Int :=
  ratTrunc ((vs.sum : ℚ) / (vs.length : ℚ))

/-- Dispatcher for the per-channel loaded value of each bit-depth branch. -/
def chanValAt (bits : Nat) (raw : List Nat) (channels i ch : Nat) : Int :=
  if bits = 8 then chanVal8 raw channels i ch
  else if bits = 16 then chanVal16 raw channels i ch
  else if bits = 24 then chanVal24 raw channels i ch
  else if bits = 32 then chanVal32 raw channels i ch
  else 0

theorem getD_lt_of_all {raw : List Nat} (h : ∀ b ∈ raw, b < 256) (k : Nat) :
    raw.getD k 0 < 256 := by
  rcases lt_or_le k raw.length with hk | hk
  · rw [List.getD_eq_getElem _ _ hk]
    exact h _ (List.getElem_mem _)
  · rw [List.getD_eq_default _ _ hk]
    norm_num

theorem sext_bounds {w v : Nat} (hw : 0 < w) (hv : v < 2 ^ w) :
    -(2 ^ (w - 1) : Int) ≤ sext w v ∧ sext w v < 2 ^ (w - 1) := by
  have h2 : (2 : Int) ^ w = 2 * 2 ^ (w - 1) := by
    conv_lhs => rw [show w = (w - 1) + 1 by omega]
    ring
  have hv' : (v : Int) < 2 ^ w := by exact_mod_cast hv
  unfold sext
  split_ifs with h
  · have : (v : Int) < 2 ^ (w - 1) := by exact_mod_cast h
    constructor <;> omega
  · have : (2 : Int) ^ (w - 1) ≤ (v : Int) := by
      have := not_lt.mp h
      exact_mod_cast this
    constructor <;> omega

theorem asr_bounds {x : Int} {n : Nat} {lo hi : Int}
    (hlo : lo * 2 ^ n ≤ x) (hhi : x ≤ hi * 2 ^ n + (2 ^ n - 1)) :
    lo ≤ asr x n ∧ asr x n ≤ hi := by
  unfold asr
  have hn : (0 : Int) < 2 ^ n := by positivity
  rw [Int.fdiv_eq_ediv _ (le_of_lt hn)]
  constructor
  · have h := Int.ediv_le_ediv hn hlo
    rwa [Int.mul_ediv_cancel _ (by omega)] at h
  · have h := Int.ediv_le_ediv hn hhi
    have h3 : (hi * 2 ^ n + (2 ^ n - 1)) / 2 ^ n = hi := by
      rw [show hi * 2 ^ n + (2 ^ n - 1) = (2 ^ n - 1) + 2 ^ n * hi by ring]
      rw [Int.add_mul_ediv_left _ _ (show (2:Int) ^ n ≠ 0 by omega)]
      rw [Int.ediv_eq_zero_of_lt (by omega) (by omega)]
      omega
    omega

theorem chanValAt_bounds {bits : Nat} (hbits : bits = 8 ∨ bits = 16 ∨ bits = 24 ∨ bits = 32)
    {raw : List Nat} (hraw : ∀ b ∈ raw, b < 256) (channels i ch : Nat) :
    -32768 ≤ chanValAt bits raw channels i ch ∧ chanValAt bits raw channels i ch ≤ 32767 := by
  have hb := getD_lt_of_all hraw
  rcases hbits with h | h | h | h <;> subst h
  · show -32768 ≤ chanVal8 raw channels i ch ∧ chanVal8 raw channels i ch ≤ 32767
    unfold chanVal8
    have h0 := hb (i * channels + ch)
    have h1 : (raw.getD (i * channels + ch) 0 : Int) < 256 := by exact_mod_cast h0
    have h2 : (0 : Int) ≤ (raw.getD (i * channels + ch) 0 : Int) := by positivity
    constructor <;> nlinarith
  · show -32768 ≤ chanVal16 raw channels i ch ∧ chanVal16 raw channels i ch ≤ 32767
    unfold chanVal16 le16At
    set v := raw.getD (2 * (i * channels + ch)) 0 + 256 * raw.getD (2 * (i * channels + ch) + 1) 0 with hvdef
    have h0 := hb (2 * (i * channels + ch))
    have h1 := hb (2 * (i * channels + ch) + 1)
    have hv : v < 2 ^ 16 := by omega
    have hs := sext_bounds (w := 16) (by norm_num) hv
    norm_num at hs
    exact ⟨hs.1, by omega⟩
  · show -32768 ≤ chanVal24 raw channels i ch ∧ chanVal24 raw channels i ch ≤ 32767
    unfold chanVal24
    set v := raw.getD ((i * channels + ch) * 3) 0
        + 256 * raw.getD ((i * channels + ch) * 3 + 1) 0
        + 65536 * raw.getD ((i * channels + ch) * 3 + 2) 0 with hvdef
    have h0 := hb ((i * channels + ch) * 3)
    have h1 := hb ((i * channels + ch) * 3 + 1)
    have h2 := hb ((i * channels + ch) * 3 + 2)
    have hv : v < 2 ^ 24 := by omega
    have hs := sext_bounds (w := 24) (by norm_num) hv
    norm_num at hs
    exact @asr_bounds _ 8 (-32768) 32767 (by norm_num; omega) (by norm_num; omega)
  · show -32768 ≤ chanVal32 raw channels i ch ∧ chanVal32 raw channels i ch ≤ 32767
    unfold chanVal32 le32At
    set v := raw.getD (4 * (i * channels + ch)) 0
        + 256 * raw.getD (4 * (i * channels + ch) + 1) 0
        + 65536 * raw.getD (4 * (i * channels + ch) + 2) 0
        + 16777216 * raw.getD (4 * (i * channels + ch) + 3) 0 with hvdef
    have h0 := hb (4 * (i * channels + ch))
    have h1 := hb (4 * (i * channels + ch) + 1)
    have h2 := hb (4 * (i * channels + ch) + 2)
    have h3 := hb (4 * (i * channels + ch) + 3)
    have hv : v < 2 ^ 32 := by omega
    have hs := sext_bounds (w := 32) (by norm_num) hv
    norm_num at hs
    exact @asr_bounds _ 16 (-32768) 32767 (by norm_num; omega) (by norm_num; omega)

theorem frameAvg_eq_meanTrunc (cv : Nat → Int) (channels : Nat) (hch : 0 < channels)
    (hbnd : ∀ j, -32768 ≤ cv j ∧ cv j ≤ 32767) :
    frameAvg cv channels = meanTruncTowardZero ((List.range channels).map cv) := by
  set vs := (List.range channels).map cv with hvs
  have hlen : vs.length = channels := by simp [hvs]
  have hlo : (channels : Int) * (-32768) ≤ vs.sum := by
    have := List.card_nsmul_le_sum vs (-32768 : Int) (fun x hx => by
      rcases List.mem_map.mp (hvs ▸ hx) with ⟨j, _, rfl⟩
      exact (hbnd j).1)
    simpa [hlen, mul_comm] using this
  have hhi : vs.sum ≤ (channels : Int) * 32767 := by
    have := List.sum_le_card_nsmul vs (32767 : Int) (fun x hx => by
      rcases List.mem_map.mp (hvs ▸ hx) with ⟨j, _, rfl⟩
      exact (hbnd j).2)
    simpa [hlen, mul_comm] using this
  unfold frameAvg meanTruncTowardZero
  rw [hlen]
  rw [tdiv_eq_ratTrunc _ _ hch]
  have hchq : (0 : ℚ) < (channels : ℚ) := by exact_mod_cast hch
  have hqlo : (((-32768 : Int)) : ℚ) ≤ (vs.sum : ℚ) / (channels : ℚ) := by
    rw [le_div_iff₀ hchq]
    have h' : ((-32768) * (channels : Int)) ≤ vs.sum := by linarith
    exact_mod_cast h'
  have hqhi : (vs.sum : ℚ) / (channels : ℚ) ≤ (((32767 : Int)) : ℚ) := by
    rw [div_le_iff₀ hchq]
    have h' : vs.sum ≤ (32767 * (channels : Int)) := by linarith
    exact_mod_cast h'
  have hbd := ratTrunc_bounds_of_bounds hqlo hqhi
  exact toInt16_eq_self hbd.1 hbd.2

theorem getD_map_range {f : Nat → Int} {samples i : Nat} (hi : i < samples) :
    ((List.range samples).map f).getD i 0 = f i := by
  rw [List.getD_eq_getElem _ _ (by simpa using hi)]
  simp

/-- **C2 (amended).** For every supported bit depth (8, 16, 24, 32) and every
channel count, `convert_to_16bit` downmixes each input frame to the exact
arithmetic mean of its per-channel values with the quotient truncated toward
zero; in particular a stereo 16-bit frame (100, 300) decodes to mono 200 and a
stereo 16-bit frame (100, -101) decodes to mono 0 (C integer division
truncates the mean -1/2 toward zero, giving 0 — not -1 as the original claim
stated). -/
theorem C2_downmix_mean_trunc :
    (∀ bits, (bits = 8 ∨ bits = 16 ∨ bits = 24 ∨ bits = 32) →
      ∀ channels raw samples, 0 < channels → (∀ b ∈ raw, b < 256) →
      ∀ i, i < samples →
      (convert_to_16bit bits channels raw samples).getD i 0 =
        meanTruncTowardZero ((List.range channels).map (chanValAt bits raw channels i)))
    ∧ convert_to_16bit 16 2 (shortBytes 100 ++ shortBytes 300) 1 = [200]
    ∧ convert_to_16bit 16 2 (shortBytes 100 ++ shortBytes (-101)) 1 = [0] := by
  refine ⟨?_, by decide, by decide⟩
  intro bits hbits channels raw samples hch hraw i hi
  have hbnd : ∀ ch, -32768 ≤ chanValAt bits raw channels i ch ∧
      chanValAt bits raw channels i ch ≤ 32767 :=
    fun ch => chanValAt_bounds hbits hraw channels i ch
  rcases hbits with h | h | h | h <;> subst h
  · show ((List.range samples).map (fun j => frameAvg (chanVal8 raw channels j) channels)).getD i 0 = _
    rw [getD_map_range hi]
    exact frameAvg_eq_meanTrunc _ _ hch hbnd
  · show ((List.range samples).map (fun j => frameAvg (chanVal16 raw channels j) channels)).getD i 0 = _
    rw [getD_map_range hi]
    exact frameAvg_eq_meanTrunc _ _ hch hbnd
  · show ((List.range samples).map (fun j => frameAvg (chanVal24 raw channels j) channels)).getD i 0 = _
    rw [getD_map_range hi]
    exact frameAvg_eq_meanTrunc _ _ hch hbnd
  · show ((List.range samples).map (fun j => frameAvg (chanVal32 raw channels j) channels)).getD i 0 = _
    rw [getD_map_range hi]
    exact frameAvg_eq_meanTrunc _ _ hch hbnd

/-- Witness for C2: the 16-bit stereo frame (100, 300) — raw little-endian
bytes [100, 0, 44, 1] — evaluated through the theorem. -/
theorem C2_downmix_mean_trunc_witness :
    (convert_to_16bit 16 2 [100, 0, 44, 1] 1).getD 0 0 =
      meanTruncTowardZero ((List.range 2).map (chanValAt 16 [100, 0, 44, 1] 2 0)) :=
  C2_downmix_mean_trunc.1 16 (Or.inr (Or.inl rfl)) 2 [100, 0, 44, 1] 1
    (by decide) (by decide) 0 (by decide)

/-- **C2 counterexample.** The claim pins the stereo 16-bit frame (100, -101)
to mono -1, but `convert_to_16bit` (and C `/` on int) truncates the mean -1/2
toward zero: the decoded value is 0, not -1. -/
theorem C2_downmix_neg_half_counterexample :
    convert_to_16bit 16 2 (shortBytes 100 ++ shortBytes (-101)) 1 = [0] ∧
    ((0 : Int) ≠ -1) := by
  exact ⟨by decide, by decide⟩

/-- **C3 (amended).** For every declared bit depth other than 8, 16, 24 or 32,
`convert_to_16bit` does not fail: the `default:` branch of the switch fills
the output with `samples` zero samples (silence) and signals no error. -/
theorem C3_unsupported_depth_silence (bits : Nat)
    (hb : bits ≠ 8 ∧ bits ≠ 16 ∧ bits ≠ 24 ∧ bits ≠ 32)
    (channels : Nat) (raw : List Nat) (samples : Nat) :
    convert_to_16bit bits channels raw samples = List.replicate samples 0 := by
  unfold convert_to_16bit
  rcases hb with ⟨h8, h16, h24, h32⟩
  simp [h8, h16, h24, h32]

theorem C3_unsupported_depth_silence_witness :
    ((12 : Nat) ≠ 8 ∧ (12 : Nat) ≠ 16 ∧ (12 : Nat) ≠ 24 ∧ (12 : Nat) ≠ 32) ∧
    convert_to_16bit 12 1 [200, 77] 2 = List.replicate 2 0 :=
  ⟨by decide, C3_unsupported_depth_silence 12 (by decide) 1 [200, 77] 2⟩

/-- **C3 counterexample.** At the unsupported bit depth 12 the decoder
produces the sample values [0, 0] — byte-for-byte the same output as a
successful decode of genuine 16-bit silence — instead of any distinguishable
failure signal: the claim that it "fails with an UnsupportedFormatError
rather than producing any guessed sample values" is false on the code. -/
theorem C3_unsupported_depth_counterexample :
    convert_to_16bit 12 1 [200, 77] 2 = [0, 0] ∧
    convert_to_16bit 12 1 [200, 77] 2 = convert_to_16bit 16 1 [0, 0, 0, 0] 2 := by
  constructor <;> decide

/-! ## Streaming Resampler: `resample_to_8khz` (codec2_encode_enhanced.c:284-315)

The C loop runs `i` from 0 while `i < max_output_samples`; we model it with
the remaining iteration budget `fuel = max_output_samples - i` as the
structural recursion argument.  All `double` arithmetic is exact rational. -/

def resampleLoop (phase ratio : ℚ) (input : List Int) (inputN : Nat) :
    Nat → Nat → List Int
  | _, 0 => []
  | i, fuel + 1 =>
    let srcPos := phase + (i : ℚ) * ratio
    let srcIdx := ratTrunc srcPos
    if (inputN : Int) - 1 ≤ srcIdx then []
    else
      let sample1 := input.getD srcIdx.toNat 0
      let sample2 := if srcIdx + 1 < (inputN : Int) then input.getD (srcIdx.toNat + 1) 0
                     else sample1
      ratTrunc ((sample1 : ℚ) + (srcPos - (srcIdx : ℚ)) * ((sample2 : ℚ) - (sample1 : ℚ))) ::
        resampleLoop phase ratio input inputN (i + 1) fuel

/-- `resample_to_8khz`: when the source rate is exactly 8000 the samples pass
through (`memcpy` of `min input_samples max_output_samples` samples, phase
untouched); otherwise the linear-interpolation loop runs and the phase is
advanced by `output_count * ratio` keeping only its fractional part. -/
def resample_to_8khz (rate : Nat) (phase : ℚ) (input : List Int) (inputN : Nat)
    (max_output : Nat) : List Int × ℚ :=
  if rate = 8000 then (input.take (min inputN max_output), phase)
  else
    let ratio : ℚ := (rate : ℚ) / 8000
    let out := resampleLoop phase ratio input inputN 0 max_output
    let phase1 := phase + (out.length : ℚ) * ratio
    (out, phase1 - (ratTrunc phase1 : ℚ))

/-- Evaluation helpers: `Int.toNat` on small numerals (for concrete runs). -/
theorem int_toNat_numeral (n : Nat) [n.AtLeastTwo] :
    (Int.toNat (OfNat.ofNat n)) = OfNat.ofNat n := rfl

theorem list_range_1 : List.range 1 = [0] := rfl

theorem list_range_2 : List.range 2 = [0, 1] := rfl

theorem list_range_3 : List.range 3 = [0, 1, 2] := rfl

theorem list_range_4 : List.range 4 = [0, 1, 2, 3] := rfl

theorem list_range_5 : List.range 5 = [0, 1, 2, 3, 4] := rfl

theorem list_range_6 : List.range 6 = [0, 1, 2, 3, 4, 5] := rfl

theorem int_toNat_lit0 : (0 : Int).toNat = 0 := rfl

theorem int_toNat_lit1 : (1 : Int).toNat = 1 := rfl

theorem int_toNat_lit2 : (2 : Int).toNat = 2 := rfl

theorem int_toNat_lit3 : (3 : Int).toNat = 3 := rfl

theorem int_toNat_lit4 : (4 : Int).toNat = 4 := rfl

theorem int_toNat_lit5 : (5 : Int).toNat = 5 := rfl

theorem int_toNat_lit6 : (6 : Int).toNat = 6 := rfl

theorem int_toNat_lit8 : (8 : Int).toNat = 8 := rfl

/-- Modelled from the spec (§4.3): the exact interpolation value at source
position `p`: `idx = floor(p)`, `frac = p - idx`,
`sample[idx] + frac * (sample[idx+1] - sample[idx])`, flat extrapolation at
the end of the available input. -/
def interpAt (input : List Int) (inputN : Nat) (p : ℚ) : ℚ :=
  let idx := ratTrunc p
  let s1 := input.getD idx.toNat 0
  let s2 := if idx + 1 < (inputN : Int) then input.getD (idx.toNat + 1) 0 else s1
  (s1 : ℚ) + (p - (idx : ℚ)) * ((s2 : ℚ) - (s1 : ℚ))

theorem interp_bounds {a b t : ℚ} (ht0 : 0 ≤ t) (ht1 : t < 1)
    (ha : -32768 ≤ a ∧ a ≤ 32767) (hb : -32768 ≤ b ∧ b ≤ 32767) :
    -32768 ≤ a + t * (b - a) ∧ a + t * (b - a) ≤ 32767 := by
  constructor
  · have h1 : 0 ≤ (1 - t) * (a + 32768) := mul_nonneg (by linarith) (by linarith)
    have h2 : 0 ≤ t * (b + 32768) := mul_nonneg ht0 (by linarith)
    nlinarith
  · have h1 : 0 ≤ (1 - t) * (32767 - a) := mul_nonneg (by linarith) (by linarith)
    have h2 : 0 ≤ t * (32767 - b) := mul_nonneg ht0 (by linarith)
    nlinarith

theorem getD_int_range {input : List Int} (h : ∀ x ∈ input, -32768 ≤ x ∧ x ≤ 32767) (k : Nat) :
    -32768 ≤ input.getD k 0 ∧ input.getD k 0 ≤ 32767 := by
  rcases lt_or_le k input.length with hk | hk
  · rw [List.getD_eq_getElem _ _ hk]
    exact h _ (List.getElem_mem _)
  · rw [List.getD_eq_default _ _ hk]
    norm_num

theorem resampleLoop_spec (phase ratio : ℚ) (input : List Int) (inputN : Nat)
    (hph : 0 ≤ phase) (hr : 0 ≤ ratio)
    (hrange : ∀ k, -32768 ≤ input.getD k 0 ∧ input.getD k 0 ≤ 32767) :
    ∀ fuel i j, j < (resampleLoop phase ratio input inputN i fuel).length →
      (resampleLoop phase ratio input inputN i fuel).getD j 0 =
        ratTrunc (interpAt input inputN (phase + ((i + j : Nat) : ℚ) * ratio)) ∧
      -32768 ≤ (resampleLoop phase ratio input inputN i fuel).getD j 0 ∧
      (resampleLoop phase ratio input inputN i fuel).getD j 0 ≤ 32767 := by
  intro fuel
  induction fuel with
  | zero => intro i j hj; simp [resampleLoop] at hj
  | succ fuel ih =>
    intro i j hj
    rw [resampleLoop] at hj ⊢
    set p := phase + (i : ℚ) * ratio with hp
    have hp0 : 0 ≤ p := by positivity
    by_cases hbreak : (inputN : Int) - 1 ≤ ratTrunc p
    · simp only [hbreak, if_pos, List.length_nil] at hj
      omega
    · simp only [if_neg hbreak] at hj ⊢
      cases j with
      | zero =>
        refine ⟨?_, ?_⟩
        · simp only [List.getD_cons_zero]
          have : ((i + 0 : Nat) : ℚ) = (i : ℚ) := by norm_num
          rw [this]
          rfl
        · simp only [List.getD_cons_zero]
          have hfrac0 : 0 ≤ p - (ratTrunc p : ℚ) := by
            rw [ratTrunc_nonneg_eq_floor hp0]
            have := Int.floor_le p
            linarith
          have hfrac1 : p - (ratTrunc p : ℚ) < 1 := by
            rw [ratTrunc_nonneg_eq_floor hp0]
            have := Int.lt_floor_add_one p
            linarith
          set s1 := input.getD (ratTrunc p).toNat 0 with hs1def
          set s2 := (if ratTrunc p + 1 < (inputN : Int) then
              input.getD ((ratTrunc p).toNat + 1) 0 else s1) with hs2def
          have hs1 : -32768 ≤ s1 ∧ s1 ≤ 32767 := hrange _
          have hs2 : -32768 ≤ s2 ∧ s2 ≤ 32767 := by
            rw [hs2def]
            split_ifs
            · exact hrange _
            · exact hrange _
          have hs1q : (-32768 : ℚ) ≤ (s1 : ℚ) ∧ (s1 : ℚ) ≤ 32767 := by
            constructor
            · exact_mod_cast hs1.1
            · exact_mod_cast hs1.2
          have hs2q : (-32768 : ℚ) ≤ (s2 : ℚ) ∧ (s2 : ℚ) ≤ 32767 := by
            constructor
            · exact_mod_cast hs2.1
            · exact_mod_cast hs2.2
          have hib := interp_bounds hfrac0 hfrac1 hs1q hs2q
          exact @ratTrunc_bounds_of_bounds _ (-32768) 32767
            (by exact_mod_cast hib.1) (by exact_mod_cast hib.2)
      | succ j =>
        simp only [List.getD_cons_succ]
        simp only [List.length_cons] at hj
        have := ih (i + 1) j (by omega)
        have harith : ((i + 1 + j : Nat) : ℚ) = ((i + (j + 1) : Nat) : ℚ) := by
          push_cast
          ring
        rw [harith] at this
        exact this

/-- **C5 counterexample.** At source rate 10000 Hz (ratio 5/4, exact in IEEE
double) with input [0,0,0,1,2,9,9], the fourth output interpolates at source
position 15/4: the exact value is 1 + (3/4)*(2-1) = 7/4.  The code's
`(short)` cast truncates it to 1; rounding to the nearest integer (as the
claim states) would give 2. -/
theorem C5_trunc_not_round_counterexample :
    (resample_to_8khz 10000 0 [0, 0, 0, 1, 2, 9, 9] 7 4).1 = [0, 0, 0, 1] ∧
    round ((1 : ℚ) + (3 / 4) * ((2 : ℚ) - 1)) = 2 ∧ ((1 : Int) ≠ 2) := by
  refine ⟨?_, ?_, by decide⟩
  · norm_num [resample_to_8khz, resampleLoop, ratTrunc, int_toNat_numeral]
    simp only [show ((2 : Int).toNat) = 2 from rfl, show ((3 : Int).toNat) = 3 from rfl]
    norm_num
  · norm_num [round_eq]

/-- **C5 (amended).** Every interpolated output sample of the streaming
resampler (non-unity ratio, nonnegative incoming phase, 16-bit-range input)
equals the exact interpolation value `sample[idx] + frac*(sample[idx+1] -
sample[idx])` **truncated toward zero** (the C `(short)(double)` cast), not
rounded to nearest; no saturation is performed, and none is needed — every
stored value already lies in [-32768, 32767] because it is an interpolation
between two in-range samples. -/
theorem C5_interpolation_trunc (rate : Nat) (phase : ℚ) (input : List Int)
    (inputN max_output : Nat) (hrate : rate ≠ 8000) (hph : 0 ≤ phase)
    (hrange : ∀ x ∈ input, -32768 ≤ x ∧ x ≤ 32767) :
    ∀ j, j < (resample_to_8khz rate phase input inputN max_output).1.length →
      (resample_to_8khz rate phase input inputN max_output).1.getD j 0 =
        ratTrunc (interpAt input inputN (phase + (j : ℚ) * ((rate : ℚ) / 8000))) ∧
      -32768 ≤ (resample_to_8khz rate phase input inputN max_output).1.getD j 0 ∧
      (resample_to_8khz rate phase input inputN max_output).1.getD j 0 ≤ 32767 := by
  intro j hj
  have hout : (resample_to_8khz rate phase input inputN max_output).1 =
      resampleLoop phase ((rate : ℚ) / 8000) input inputN 0 max_output := by
    unfold resample_to_8khz
    rw [if_neg hrate]
  rw [hout] at hj ⊢
  have := resampleLoop_spec phase ((rate : ℚ) / 8000) input inputN hph (by positivity)
    (getD_int_range hrange) max_output 0 j hj
  simpa using this

/-- Witness for C5: the concrete resampler call of the counterexample, with
every hypothesis discharged at `j = 3`. -/
theorem C5_interpolation_trunc_witness :
    (resample_to_8khz 10000 0 [0, 0, 0, 1, 2, 9, 9] 7 4).1.getD 3 0 =
      ratTrunc (interpAt [0, 0, 0, 1, 2, 9, 9] 7 (0 + (3 : ℚ) * ((10000 : ℚ) / 8000))) ∧
    -32768 ≤ (resample_to_8khz 10000 0 [0, 0, 0, 1, 2, 9, 9] 7 4).1.getD 3 0 ∧
    (resample_to_8khz 10000 0 [0, 0, 0, 1, 2, 9, 9] 7 4).1.getD 3 0 ≤ 32767 :=
  C5_interpolation_trunc 10000 0 [0, 0, 0, 1, 2, 9, 9] 7 4
    (by decide) (by norm_num) (by decide) 3
    (by norm_num [resample_to_8khz, resampleLoop, ratTrunc, int_toNat_numeral])

/-! ## Read-path stream state (`wav_enhanced_t`) and
`wav_enhanced_read_samples_16bit_mono_8khz` (codec2_encode_enhanced.c:524-558) -/

structure WavEnh where
  fileBytes : List Nat
  filePos : Nat
  original_format : Nat
  original_channels : Nat
  original_sample_rate : Nat
  original_bits_per_sample : Nat
  total_samples : Nat
  samples_read : Nat
  data_start_pos : Nat
  data_size : Nat
  resample_ratio : ℚ
  resample_phase : ℚ
  resample_buffer_size : Nat
  deriving DecidableEq

/-- The body of `wav_enhanced_read_samples_16bit_mono_8khz` for a non-NULL
stream and buffer (the NULL guards are modelled by the `Option` wrapper
below): compute `samples_to_read = (int)(num_samples * ratio) + 2` clamped to
the resample buffer size, `fread` that many raw frames (consuming the bytes
actually available), convert to 16-bit mono, resample, and advance the
stream state.  Returns the produced samples and the updated state. -/
def wav_enhanced_read_core (w : WavEnh) (num_samples : Nat) : List Int × WavEnh :=
  let bytes_per_sample := w.original_bits_per_sample / 8
  let toRead0 := (ratTrunc ((num_samples : ℚ) * w.resample_ratio)).toNat + 2
  let samples_to_read := if w.resample_buffer_size < toRead0 then w.resample_buffer_size
                         else toRead0
  let bytesWanted := samples_to_read * w.original_channels * bytes_per_sample
  let raw := (w.fileBytes.drop w.filePos).take bytesWanted
  let bytes_read := raw.length
  let actual := bytes_read / (w.original_channels * bytes_per_sample)
  if actual = 0 then ([], { w with filePos := w.filePos + bytes_read })
  else
    let conv := convert_to_16bit w.original_bits_per_sample w.original_channels raw actual
    let res := resample_to_8khz w.original_sample_rate w.resample_phase conv actual num_samples
    (res.1, { w with filePos := w.filePos + bytes_read,
                     resample_phase := res.2,
                     samples_read := w.samples_read + res.1.length })

/-- Drive repeated read calls with the given per-call `num_samples` values, as
the encoder's frame loop does, concatenating the produced samples. -/
def readChunks (w : WavEnh) : List Nat → List Int
  | [] => []
  | n :: ns =>
    (wav_enhanced_read_core w n).1 ++ readChunks (wav_enhanced_read_core w n).2 ns

/-- A parsed 12000 Hz, mono, 16-bit stream positioned at the start of its
data region, holding the seven samples [0, 100, 200, 300, 400, 500, 600]
(little-endian byte literals below; `w12k_bytes_eq` checks them). -/
def w12k : WavEnh :=
  { fileBytes := [0, 0, 100, 0, 200, 0, 44, 1, 144, 1, 244, 1, 88, 2]
    filePos := 0
    original_format := 1
    original_channels := 1
    original_sample_rate := 12000
    original_bits_per_sample := 16
    total_samples := 7
    samples_read := 0
    data_start_pos := 0
    data_size := 14
    resample_ratio := (12000 : ℚ) / 8000
    resample_phase := 0
    resample_buffer_size := 4096 }

theorem w12k_bytes_eq :
    w12k.fileBytes = ([0, 100, 200, 300, 400, 500, 600].map shortBytes).flatten := by
  decide

/-- A parsed 8000 Hz, mono, 16-bit stream positioned at the start of its data
region, holding the six samples [1, 2, 3, 4, 5, 6]. -/
def w8k : WavEnh :=
  { fileBytes := [1, 0, 2, 0, 3, 0, 4, 0, 5, 0, 6, 0]
    filePos := 0
    original_format := 1
    original_channels := 1
    original_sample_rate := 8000
    original_bits_per_sample := 16
    total_samples := 6
    samples_read := 0
    data_start_pos := 0
    data_size := 12
    resample_ratio := (8000 : ℚ) / 8000
    resample_phase := 0
    resample_buffer_size := 4096 }

theorem w8k_bytes_eq :
    w8k.fileBytes = ([1, 2, 3, 4, 5, 6].map shortBytes).flatten := by
  decide

/-- **C1 (code bug).** Reading a 12000 Hz mono 16-bit stream one output
sample at a time diverges from reading it in a single call: after the first
call the phase is exactly frac(0 + 1·(3/2)) = 1/2 as the claim's formula
says, but the call consumed 3 source samples from the file while the
resampler only advanced 1.5 source positions — the unread tail of the
internal chunk is discarded, so source samples are skipped at the call
boundary and the second output is 350 instead of 150. -/
theorem C1_chunked_read_skips_source_samples :
    (wav_enhanced_read_core w12k 2).1 = [0, 150] ∧
    readChunks w12k [1, 1] = [0, 350] ∧
    (wav_enhanced_read_core w12k 1).2.resample_phase = 1 / 2 ∧
    (wav_enhanced_read_core w12k 1).2.filePos = 6 ∧
    readChunks w12k [1, 1] ≠ (wav_enhanced_read_core w12k 2).1 := by
  refine ⟨?_, ?_, ?_, ?_, ?_⟩ <;>
    norm_num [readChunks, wav_enhanced_read_core, resample_to_8khz, resampleLoop,
      ratTrunc, convert_to_16bit, chanVal16, frameAvg, le16At, sext, toInt16,
      w12k, list_range_1, int_toNat_lit0, int_toNat_lit1, int_toNat_lit2,
      int_toNat_lit3, int_toNat_lit4, int_toNat_lit5, int_toNat_lit6, int_toNat_lit8]

/-- **C6 (code bug).** At source rate exactly 8000 Hz a single call returns
the input unchanged, but the chunked read path reads `num_samples + 2` source
samples from the file per call and copies only `num_samples` of them: each
call boundary silently drops the two extra samples, so reading [3, 3] from a
6-sample stream yields [1, 2, 3, 6] — not the identity the claim states. -/
theorem C6_passthrough_not_identity_across_chunks :
    (wav_enhanced_read_core w8k 6).1 = [1, 2, 3, 4, 5, 6] ∧
    readChunks w8k [3, 3] = [1, 2, 3, 6] ∧
    readChunks w8k [3, 3] ≠ [1, 2, 3, 4, 5, 6] := by
  refine ⟨?_, ?_, ?_⟩ <;>
    norm_num [readChunks, wav_enhanced_read_core, resample_to_8khz, resampleLoop,
      ratTrunc, convert_to_16bit, chanVal16, frameAvg, le16At, sext, toInt16,
      w8k, list_range_1, list_range_2, list_range_3, list_range_4, list_range_5, list_range_6, int_toNat_lit0, int_toNat_lit1, int_toNat_lit2,
      int_toNat_lit3, int_toNat_lit4, int_toNat_lit5, int_toNat_lit6, int_toNat_lit8]

/-! ## Chunk Scanner: `wav_enhanced_open_read` (codec2_encode_enhanced.c:384-483)

The C code walks the file with `fread`/`fseek`.  We model the reader state as
the remaining bytes `tail` plus the count `consumed` of bytes consumed so far;
`consumed` equals the C `ftell` position, also when an `fseek` skips past the
end of the file (then `tail` is empty and the next read sets `eof`, exactly
as `fread` at or past EOF reads nothing and raises the EOF flag). -/

def FOURCC_RIFF : Nat := 0x46464952

def FOURCC_WAVE : Nat := 0x45564157

def FOURCC_FMT : Nat := 0x20746D66

def FOURCC_DATA : Nat := 0x61746164

structure ScanSt where
  tail : List Nat
  consumed : Nat
  eof : Bool
  found_fmt : Bool
  found_data : Bool
  original_format : Nat
  original_channels : Nat
  original_sample_rate : Nat
  original_bits_per_sample : Nat
  data_rel : Nat
  data_size : Nat
  total_samples : Nat
  deriving DecidableEq

/-- `read_le32`: read 4 bytes little-endian; on a short read consume what is
left, set `eof` and return 0 (the C helper returns 0 when `fread != 4`). -/
def rd32 (st : ScanSt) : Nat × ScanSt :=
  if 4 ≤ st.tail.length then
    (le32At st.tail 0, { st with tail := st.tail.drop 4, consumed := st.consumed + 4 })
  else
    (0, { st with tail := [], consumed := st.consumed + st.tail.length, eof := true })

/-- `read_le16`, analogously. -/
def rd16 (st : ScanSt) : Nat × ScanSt :=
  if 2 ≤ st.tail.length then
    (le16At st.tail 0, { st with tail := st.tail.drop 2, consumed := st.consumed + 2 })
  else
    (0, { st with tail := [], consumed := st.consumed + st.tail.length, eof := true })

/-- `fseek(file, n, SEEK_CUR)`: advance by `n` bytes (possibly past the end). -/
def skipBytes (n : Nat) (st : ScanSt) : ScanSt :=
  { st with tail := st.tail.drop n, consumed := st.consumed + n }

/-- The chunk loop's exit condition: `feof(file) || (found_fmt && found_data)`. -/
def scanStop (st : ScanSt) : Bool := st.eof || (st.found_fmt && st.found_data)

/-- Body of the fmt-chunk branch, after the chunk header was read: parse the
six format fields (byte rate and block align read and discarded), skip any
`chunk_size - 16` extension bytes, set `found_fmt`. -/
def scanFmt (csz : Nat) (st : ScanSt) : ScanSt :=
  let r3 := rd16 st
  let r4 := rd16 r3.2
  let r5 := rd32 r4.2
  let r6 := rd32 r5.2
  let r7 := rd16 r6.2
  let r8 := rd16 r7.2
  let s9 := if 16 < csz then skipBytes (csz - 16) r8.2 else r8.2
  { s9 with found_fmt := true, original_format := r3.1, original_channels := r4.1,
            original_sample_rate := r5.1, original_bits_per_sample := r8.1 }

/-- Body of the data-chunk branch: record the current position and size and
compute `total_samples = chunk_size / (channels * bits_per_sample / 8)`. -/
def scanData (csz : Nat) (st : ScanSt) : ScanSt :=
  { st with found_data := true, data_rel := st.consumed, data_size := csz,
            total_samples := csz / (st.original_channels * st.original_bits_per_sample / 8) }

/-- One iteration of the chunk loop: read a chunk id and size and dispatch —
fmt chunk: `scanFmt`; data chunk: `scanData` and `break` (the `Bool`
component is `false`); anything else: skip exactly `chunk_size` bytes (the C
code guards the `fseek` behind `chunk_size > 0`). -/
def scanIter (st : ScanSt) : ScanSt × Bool :=
  let r1 := rd32 st
  let cid := r1.1
  let r2 := rd32 r1.2
  let csz := r2.1
  if cid = FOURCC_FMT then (scanFmt csz r2.2, true)
  else if cid = FOURCC_DATA then (scanData csz r2.2, false)
  else ((if 0 < csz then skipBytes csz r2.2 else r2.2), true)

/-- The chunk-parsing `while` loop, with an explicit iteration budget `fuel`
(each iteration consumes at least 8 bytes or stops, so any fuel at least
`tail.length + 2` computes the fixpoint — `scanChunks_fuel_high` below). -/
def scanChunks : Nat → ScanSt → ScanSt
  | 0, st => st
  | fuel + 1, st =>
    if scanStop st then st
    else
      let r := scanIter st
      if r.2 then scanChunks fuel r.1 else r.1

/-- The tail of `wav_enhanced_open_read` after the chunk loop: require both
chunks found and build the stream state from the scanner's results.  On
success the stream is positioned right after the data chunk header
(`ftell` = `st.consumed`), with `resample_ratio = original_sample_rate /
8000.0` and zero phase. -/
def openFromScan (bs : List Nat) (st : ScanSt) : Option WavEnh :=
  if st.found_fmt = true ∧ st.found_data = true then
    some { fileBytes := bs
           filePos := st.consumed
           original_format := st.original_format
           original_channels := st.original_channels
           original_sample_rate := st.original_sample_rate
           original_bits_per_sample := st.original_bits_per_sample
           total_samples := st.total_samples
           samples_read := 0
           data_start_pos := st.data_rel
           data_size := st.data_size
           resample_ratio := (st.original_sample_rate : ℚ) / 8000
           resample_phase := 0
           resample_buffer_size := 4096 }
  else none

/-- `wav_enhanced_open_read` on the byte content of a file: check the RIFF
magic, read and ignore the overall size field, check the WAVE form id, then
run the chunk loop (any fuel at least the remaining length + 2 computes its
fixpoint). -/
def wav_enhanced_open_read (bs : List Nat) : Option WavEnh :=
  let s0 : ScanSt := ⟨bs, 0, false, false, false, 0, 0, 0, 0, 0, 0, 0⟩
  let r1 := rd32 s0
  if r1.1 ≠ FOURCC_RIFF then none else
  let r2 := rd32 r1.2
  let r3 := rd32 r2.2
  if r3.1 ≠ FOURCC_WAVE then none else
  openFromScan bs (scanChunks (r3.2.tail.length + 2) r3.2)

/-! ## Info accessors (codec2_encode_enhanced.c:598-613); a NULL stream
handle is the `none` case. -/

def wav_enhanced_get_original_sample_rate : Option WavEnh → Nat
  | none => 0
  | some w => w.original_sample_rate

def wav_enhanced_get_original_channels : Option WavEnh → Nat
  | none => 0
  | some w => w.original_channels

def wav_enhanced_get_original_bits_per_sample : Option WavEnh → Nat
  | none => 0
  | some w => w.original_bits_per_sample

/-- `wav_enhanced_get_total_samples_8khz_mono`: `(uint32_t)(total_samples /
resample_ratio)` — a `double` division by the ratio with no guard (in the
rational model a zero ratio yields 0; in C it is a division by zero
producing infinity, and the cast is undefined behaviour). -/
def wav_enhanced_get_total_samples_8khz_mono : Option WavEnh → Nat
  | none => 0
  | some w => (ratTrunc ((w.total_samples : ℚ) / w.resample_ratio)).toNat

/-- A syntactically well-formed container whose fmt chunk declares sample
rate 0 (PCM, 1 channel, 16-bit, byte rate 0, 4 data bytes). -/
def rate0File : List Nat :=
  [0x52, 0x49, 0x46, 0x46] ++ le32bytes 36 ++ [0x57, 0x41, 0x56, 0x45] ++
  [0x66, 0x6D, 0x74, 0x20] ++ le32bytes 16 ++ le16bytes 1 ++ le16bytes 1 ++
  le32bytes 0 ++ le32bytes 0 ++ le16bytes 2 ++ le16bytes 16 ++
  [0x64, 0x61, 0x74, 0x61] ++ le32bytes 4 ++ [0, 0, 0, 0]

/-- **C4 counterexample.** Opening a container whose declared sample rate is
0 does **not** fail: `wav_enhanced_open_read` has no validation of the
sample rate, so the open succeeds and the stream reports original sample
rate 0. -/
theorem C4_rate0_open_succeeds_counterexample :
    (wav_enhanced_open_read rate0File).isSome = true ∧
    wav_enhanced_get_original_sample_rate (wav_enhanced_open_read rate0File) = 0 := by
  constructor <;> decide

theorem open_read_ratio_eq (bs : List Nat) (w : WavEnh)
    (h : wav_enhanced_open_read bs = some w) :
    w.resample_ratio = (w.original_sample_rate : ℚ) / 8000 := by
  simp only [wav_enhanced_open_read, openFromScan] at h
  split_ifs at h
  · simp only [Option.some.injEq] at h
    subst h
    rfl

/-- The stream state `wav_enhanced_open_read` produces for the rate-0
container (2 "samples" counted from the 4 data bytes at 16-bit mono). -/
def wRate0 : WavEnh :=
  { fileBytes := rate0File
    filePos := 44
    original_format := 1
    original_channels := 1
    original_sample_rate := 0
    original_bits_per_sample := 16
    total_samples := 2
    samples_read := 0
    data_start_pos := 44
    data_size := 4
    resample_ratio := ((0 : Nat) : ℚ) / 8000
    resample_phase := 0
    resample_buffer_size := 4096 }

theorem open_rate0 : wav_enhanced_open_read rate0File = some wRate0 := rfl

/-- **C4 (amended).** `wav_enhanced_open_read` performs no sample-rate
validation: a declared rate of 0 opens successfully, every opened stream's
`resample_ratio` is `original_sample_rate / 8000` (0 for a rate-0 stream)
and `wav_enhanced_get_total_samples_8khz_mono` divides `total_samples` by
that ratio unguarded — for rate 0 a division by zero (0 in the rational
model; in C a double division by zero). -/
theorem C4_rate0_no_validation :
    (∀ bs w, wav_enhanced_open_read bs = some w →
       w.resample_ratio = (w.original_sample_rate : ℚ) / 8000) ∧
    (∀ w, wav_enhanced_open_read rate0File = some w →
       w.original_sample_rate = 0 ∧ w.resample_ratio = 0 ∧
       wav_enhanced_get_total_samples_8khz_mono (some w) =
         (ratTrunc ((w.total_samples : ℚ) / 0)).toNat) := by
  refine ⟨open_read_ratio_eq, ?_⟩
  intro w h
  have h0 : wav_enhanced_get_original_sample_rate (wav_enhanced_open_read rate0File) = 0 := by
    decide
  rw [h] at h0
  have hrate : w.original_sample_rate = 0 := h0
  have hratio : w.resample_ratio = 0 := by
    rw [open_read_ratio_eq _ _ h, hrate]
    norm_num
  refine ⟨hrate, hratio, ?_⟩
  simp only [wav_enhanced_get_total_samples_8khz_mono, hratio]

theorem C4_rate0_no_validation_witness :
    wRate0.resample_ratio = (wRate0.original_sample_rate : ℚ) / 8000 ∧
    (wRate0.original_sample_rate = 0 ∧ wRate0.resample_ratio = 0 ∧
     wav_enhanced_get_total_samples_8khz_mono (some wRate0) =
       (ratTrunc ((wRate0.total_samples : ℚ) / 0)).toNat) :=
  ⟨C4_rate0_no_validation.1 rate0File wRate0 open_rate0,
   C4_rate0_no_validation.2 wRate0 open_rate0⟩

/-! ## Container Writer: `wav_enhanced_open_write` /
`wav_enhanced_write_samples` / `wav_enhanced_close`
(codec2_encode_enhanced.c:485-596) -/

structure WavW where
  bytes : List Nat
  samples_written : Nat
  bytes_written : Nat
  deriving DecidableEq

/-- The 44 header bytes `wav_enhanced_open_write` emits: "RIFF", size 36
(placeholder, "will be updated"), "WAVE"; a 16-byte PCM fmt chunk for
8000 Hz mono 16-bit (byte rate 16000, block align 2); "data" with size 0
(placeholder). -/
def wavOpenWriteBytes : List Nat :=
  [0x52, 0x49, 0x46, 0x46] ++ le32bytes 36 ++ [0x57, 0x41, 0x56, 0x45] ++
  [0x66, 0x6D, 0x74, 0x20] ++ le32bytes 16 ++ le16bytes 1 ++ le16bytes 1 ++
  le32bytes 8000 ++ le32bytes 16000 ++ le16bytes 2 ++ le16bytes 16 ++
  [0x64, 0x61, 0x74, 0x61] ++ le32bytes 0

def wav_enhanced_open_write : WavW :=
  { bytes := wavOpenWriteBytes, samples_written := 0, bytes_written := 0 }

/-- `wav_enhanced_write_samples` with a valid stream and buffer: `fwrite` the
samples' little-endian bytes and return the element count, which is added to
`samples_written` and, times `sizeof(short)`, to `bytes_written`. -/
def wav_enhanced_write_core (w : WavW) (samples : List Int) : Nat × WavW :=
  (samples.length,
   { bytes := w.bytes ++ (samples.map shortBytes).flatten
     samples_written := w.samples_written + samples.length
     bytes_written := w.bytes_written + samples.length * 2 })

/-- Overwrite the bytes of `bs` at offset `pos` (`fseek` + `fwrite`). -/
def writeAt (bs : List Nat) (pos : Nat) (new : List Nat) : List Nat :=
  bs.take pos ++ (new ++ bs.drop (pos + new.length))

/-- `wav_enhanced_close` on a write stream: if at least one sample was
written, seek to offset 4 and write `36 + data_size`, then to offset 40 and
write `data_size` (`data_size = bytes_written`); otherwise leave the bytes
untouched.  Returns the final file content. -/
def wav_enhanced_close_write (w : WavW) : List Nat :=
  if 0 < w.samples_written then
    writeAt (writeAt w.bytes 4 (le32bytes (36 + w.bytes_written))) 40 (le32bytes w.bytes_written)
  else w.bytes

/-- The full write-side scenario: open, append `ss`, close. -/
def closedBytes (ss : List Int) : List Nat :=
  wav_enhanced_close_write (wav_enhanced_write_core wav_enhanced_open_write ss).2

theorem writeAt_length {bs : List Nat} {pos : Nat} {new : List Nat}
    (h : pos + new.length ≤ bs.length) : (writeAt bs pos new).length = bs.length := by
  simp [writeAt]
  omega

theorem getD_writeAt_inner {bs : List Nat} {pos : Nat} {new : List Nat} {k : Nat}
    (hk : k < new.length) (hpos : pos ≤ bs.length) :
    (writeAt bs pos new).getD (pos + k) 0 = new.getD k 0 := by
  unfold writeAt
  have hlt : (List.take pos bs).length = pos := by simp [Nat.min_eq_left hpos]
  rw [List.getD_append_right _ _ _ _ (by omega)]
  rw [hlt, Nat.add_sub_cancel_left]
  rw [List.getD_append _ _ _ _ hk]

theorem getD_writeAt_outside {bs : List Nat} {pos : Nat} {new : List Nat} {k : Nat}
    (h : k < pos ∨ pos + new.length ≤ k) (hpos : pos ≤ bs.length) :
    (writeAt bs pos new).getD k 0 = bs.getD k 0 := by
  unfold writeAt
  have hlt : (List.take pos bs).length = pos := by simp [Nat.min_eq_left hpos]
  rcases h with h | h
  · rw [List.getD_append _ _ _ _ (by omega)]
    have hkb : k < bs.length := by omega
    rw [List.getD_eq_getElem _ _ (by omega), List.getD_eq_getElem _ _ hkb]
    simp
  · rw [List.getD_append_right _ _ _ _ (by omega)]
    rw [List.getD_append_right _ _ _ _ (by simp; omega)]
    rw [hlt]
    rcases lt_or_le k bs.length with hkb | hkb
    · rw [List.getD_eq_getElem _ _ (by simp; omega), List.getD_eq_getElem _ _ hkb]
      simp only [List.getElem_drop]
      congr 1
      omega
    · rw [List.getD_eq_default _ _ (by simp; omega), List.getD_eq_default _ _ hkb]

theorem payload_length (ss : List Int) :
    ((ss.map shortBytes).flatten).length = 2 * ss.length := by
  induction ss with
  | nil => simp
  | cons a t ih =>
    simp only [List.map_cons, List.flatten_cons, List.length_append, ih, List.length_cons]
    have : (shortBytes a).length = 2 := rfl
    omega

theorem le32bytes_sum (v : Nat) :
    (le32bytes v).getD 0 0 + 256 * (le32bytes v).getD 1 0 + 65536 * (le32bytes v).getD 2 0
      + 16777216 * (le32bytes v).getD 3 0 = v % 4294967296 := by
  simp only [le32bytes, List.getD_cons_zero, List.getD_cons_succ]
  omega

/-- The stream state re-opening the empty canonical container produces. -/
def wEmpty : WavEnh :=
  { fileBytes := wavOpenWriteBytes
    filePos := 44
    original_format := 1
    original_channels := 1
    original_sample_rate := 8000
    original_bits_per_sample := 16
    total_samples := 0
    samples_read := 0
    data_start_pos := 44
    data_size := 0
    resample_ratio := ((8000 : Nat) : ℚ) / 8000
    resample_phase := 0
    resample_buffer_size := 4096 }

/-- **C9 counterexample.** After `open_write` and a sample-free close, the
top-level size field holds the placeholder 36, not 0: the claim's
"placeholder zero size fields" is wrong about the top-level field (which is
why the empty file is well-formed — 36 is the correct total for an empty
container). -/
theorem C9_placeholder_not_zero_counterexample :
    le32At (wav_enhanced_close_write wav_enhanced_open_write) 4 = 36 ∧ (36 : Nat) ≠ 0 := by
  constructor <;> decide

/-- **C9 (amended).** Closing a written container after K > 0 samples
overwrites exactly the two size fields with the true totals — data size
`2*K` at offset 40 and top-level size `36 + 2*K` at offset 4 — leaving every
other byte and the total length unchanged.  Closing after zero samples
leaves the bytes exactly as `open_write` wrote them: top-level size
placeholder 36 (not 0) and data size placeholder 0, which are precisely the
true totals of an empty container, so the file re-opens successfully as an
empty 8000 Hz, mono, 16-bit stream. -/
theorem C9_close_patches_sizes (ss : List Int) (hK : 0 < ss.length)
    (hsz : 36 + 2 * ss.length < 4294967296) :
    (le32At (closedBytes ss) 4 = 36 + 2 * ss.length ∧
     le32At (closedBytes ss) 40 = 2 * ss.length ∧
     (closedBytes ss).length = 44 + 2 * ss.length ∧
     (∀ k, (k < 4 ∨ (8 ≤ k ∧ k < 40) ∨ 44 ≤ k) →
        (closedBytes ss).getD k 0 =
          (wavOpenWriteBytes ++ (ss.map shortBytes).flatten).getD k 0)) ∧
    (wav_enhanced_close_write wav_enhanced_open_write = wavOpenWriteBytes ∧
     wav_enhanced_open_read wavOpenWriteBytes = some wEmpty ∧
     wEmpty.total_samples = 0 ∧ wEmpty.original_sample_rate = 8000 ∧
     wEmpty.original_channels = 1 ∧ wEmpty.original_bits_per_sample = 16 ∧
     le32At wavOpenWriteBytes 4 = 36 ∧ le32At wavOpenWriteBytes 40 = 0) := by
  have hbytes : (wav_enhanced_write_core wav_enhanced_open_write ss).2.bytes =
      wavOpenWriteBytes ++ (ss.map shortBytes).flatten := rfl
  have hsw : (wav_enhanced_write_core wav_enhanced_open_write ss).2.samples_written =
      ss.length := by
    show 0 + ss.length = ss.length
    omega
  have hbw : (wav_enhanced_write_core wav_enhanced_open_write ss).2.bytes_written =
      ss.length * 2 := by
    show 0 + ss.length * 2 = ss.length * 2
    omega
  have hlen : (wavOpenWriteBytes ++ (ss.map shortBytes).flatten).length =
      44 + 2 * ss.length := by
    rw [List.length_append, payload_length]
    rfl
  have hclosed : closedBytes ss =
      writeAt (writeAt (wavOpenWriteBytes ++ (ss.map shortBytes).flatten) 4
          (le32bytes (36 + ss.length * 2))) 40 (le32bytes (ss.length * 2)) := by
    unfold closedBytes wav_enhanced_close_write
    rw [hsw, hbw, hbytes, if_pos hK]
  have hlen4 : (le32bytes (36 + ss.length * 2)).length = 4 := rfl
  have hlen4' : (le32bytes (ss.length * 2)).length = 4 := rfl
  have hinner_len : (writeAt (wavOpenWriteBytes ++ (ss.map shortBytes).flatten) 4
      (le32bytes (36 + ss.length * 2))).length = 44 + 2 * ss.length := by
    rw [writeAt_length (by rw [hlen4, hlen]; omega), hlen]
  -- byte access through both patches
  have houter_inner : ∀ k, k < 4 →
      (closedBytes ss).getD (40 + k) 0 = (le32bytes (ss.length * 2)).getD k 0 := by
    intro k hk
    rw [hclosed]
    exact getD_writeAt_inner (by omega) (by rw [hinner_len]; omega)
  have houter_outside : ∀ k, k < 40 ∨ 44 ≤ k →
      (closedBytes ss).getD k 0 =
        (writeAt (wavOpenWriteBytes ++ (ss.map shortBytes).flatten) 4
          (le32bytes (36 + ss.length * 2))).getD k 0 := by
    intro k hk
    rw [hclosed]
    exact getD_writeAt_outside (by rw [hlen4']; omega) (by rw [hinner_len]; omega)
  have hinner_inner : ∀ k, k < 4 →
      (writeAt (wavOpenWriteBytes ++ (ss.map shortBytes).flatten) 4
          (le32bytes (36 + ss.length * 2))).getD (4 + k) 0 =
        (le32bytes (36 + ss.length * 2)).getD k 0 := by
    intro k hk
    exact getD_writeAt_inner (by omega) (by rw [hlen]; omega)
  have hinner_outside : ∀ k, k < 4 ∨ 8 ≤ k →
      (writeAt (wavOpenWriteBytes ++ (ss.map shortBytes).flatten) 4
          (le32bytes (36 + ss.length * 2))).getD k 0 =
        (wavOpenWriteBytes ++ (ss.map shortBytes).flatten).getD k 0 := by
    intro k hk
    exact getD_writeAt_outside (by rw [hlen4]; omega) (by rw [hlen]; omega)
  refine ⟨⟨?_, ?_, ?_, ?_⟩, rfl, rfl, rfl, rfl, rfl, rfl, by decide, by decide⟩
  · unfold le32At
    rw [show (4 : Nat) + 1 = 4 + 1 from rfl, show (4 : Nat) + 1 + 1 = 4 + 2 from by omega,
      show (4 : Nat) + 2 + 1 = 4 + 3 from by omega]
    rw [houter_outside 4 (by omega), houter_outside (4+1) (by omega),
      houter_outside (4+2) (by omega), houter_outside (4+3) (by omega)]
    rw [show (4 : Nat) = 4 + 0 from rfl]
    rw [show (4 : Nat) + 0 + 1 = 4 + 1 from by omega, show (4 : Nat) + 0 + 2 = 4 + 2 from by omega,
      show (4 : Nat) + 0 + 3 = 4 + 3 from by omega]
    rw [hinner_inner 0 (by omega), hinner_inner 1 (by omega), hinner_inner 2 (by omega),
      hinner_inner 3 (by omega)]
    rw [le32bytes_sum]
    omega
  · unfold le32At
    rw [show (40 : Nat) = 40 + 0 from rfl]
    rw [show (40 : Nat) + 0 + 1 = 40 + 1 from by omega, show (40 : Nat) + 0 + 2 = 40 + 2 from by omega,
      show (40 : Nat) + 0 + 3 = 40 + 3 from by omega]
    rw [houter_inner 0 (by omega), houter_inner 1 (by omega), houter_inner 2 (by omega),
      houter_inner 3 (by omega)]
    rw [le32bytes_sum]
    omega
  · rw [hclosed, writeAt_length (by rw [hlen4', hinner_len]; omega), hinner_len]
  · intro k hk
    have h1 := houter_outside k (by omega)
    have h2 := hinner_outside k (by omega)
    rw [h1, h2]

theorem C9_close_patches_sizes_witness :
    (le32At (closedBytes [5]) 4 = 36 + 2 * 1 ∧
     le32At (closedBytes [5]) 40 = 2 * 1 ∧
     (closedBytes [5]).length = 44 + 2 * 1 ∧
     (∀ k, (k < 4 ∨ (8 ≤ k ∧ k < 40) ∨ 44 ≤ k) →
        (closedBytes [5]).getD k 0 =
          (wavOpenWriteBytes ++ ([5].map shortBytes).flatten).getD k 0)) ∧
    (wav_enhanced_close_write wav_enhanced_open_write = wavOpenWriteBytes ∧
     wav_enhanced_open_read wavOpenWriteBytes = some wEmpty ∧
     wEmpty.total_samples = 0 ∧ wEmpty.original_sample_rate = 8000 ∧
     wEmpty.original_channels = 1 ∧ wEmpty.original_bits_per_sample = 16 ∧
     le32At wavOpenWriteBytes 4 = 36 ∧ le32At wavOpenWriteBytes 40 = 0) := by
  have h := C9_close_patches_sizes [5] (by decide) (by norm_num)
  simpa using h

/-! ## Decode drive loop (codec2_decode_enhanced, src/unnamed/part_001:332-352,
and the codec2_decode loop in the wav_util.h source block)

`while (fread(codec2_bits, 1, bytes_per_frame, input) == bytes_per_frame)`:
each iteration reads one full bit-frame and decodes it; a short final read
(the truncated trailing frame) ends the loop without decoding or padding.
The PCM output of each frame comes from the external codec2 black box, so we
model the list of bit-frames handed to `codec2_decode`. -/

def decodeLoopFrames (data : List Nat) (bpf : Nat) : List (List Nat) :=
  if h : 0 < bpf ∧ bpf ≤ data.length then
    data.take bpf :: decodeLoopFrames (data.drop bpf) bpf
  else []
termination_by data.length
decreasing_by simp only [List.length_drop]; omega

/-- **C8.** The decode driver decodes exactly `⌊data_bytes / bytes_per_frame⌋`
frames; every decoded frame is a full `bytes_per_frame` bytes (a trailing
partial frame is dropped, not zero-padded), and the frames consumed are
exactly the first `bytes_per_frame * ⌊data_bytes / bytes_per_frame⌋` bytes of
the data region — nothing past the partial tail is decoded. -/
theorem C8_decode_frame_count (data : List Nat) (bpf : Nat) (hbpf : 0 < bpf) :
    (decodeLoopFrames data bpf).length = data.length / bpf ∧
    (∀ f ∈ decodeLoopFrames data bpf, f.length = bpf) ∧
    (decodeLoopFrames data bpf).flatten = data.take (bpf * (data.length / bpf)) := by
  induction data, bpf using decodeLoopFrames.induct with
  | case1 data bpf h ih =>
    rw [decodeLoopFrames, dif_pos h]
    obtain ⟨hlen, hfr, hfl⟩ := ih h.1
    have hdiv : data.length / bpf = (data.length - bpf) / bpf + 1 :=
      Nat.div_eq_sub_div h.1 h.2
    refine ⟨?_, ?_, ?_⟩
    · simp only [List.length_cons, hlen, List.length_drop]
      omega
    · intro f hf
      rcases List.mem_cons.mp hf with rfl | hf
      · simp [Nat.min_eq_left h.2]
      · exact hfr f hf
    · simp only [List.flatten_cons, hfl, List.length_drop]
      rw [← List.take_add]
      congr 1
      rw [hdiv]
      ring
  | case2 data bpf h =>
    rw [decodeLoopFrames, dif_neg h]
    have : data.length < bpf := by omega
    refine ⟨?_, by simp, ?_⟩
    · simp [Nat.div_eq_of_lt this]
    · simp [Nat.div_eq_of_lt this]

theorem C8_decode_frame_count_witness :
    (decodeLoopFrames [1, 2, 3, 4, 5, 6, 7] 2).length = 7 / 2 ∧
    (∀ f ∈ decodeLoopFrames [1, 2, 3, 4, 5, 6, 7] 2, f.length = 2) ∧
    (decodeLoopFrames [1, 2, 3, 4, 5, 6, 7] 2).flatten =
      [1, 2, 3, 4, 5, 6, 7].take (2 * (7 / 2)) := by
  have h := C8_decode_frame_count [1, 2, 3, 4, 5, 6, 7] 2 (by decide)
  simpa using h

/-! ## NULL-handle guards (codec2_encode_enhanced.c:524-525, 560-561,
598-613): `none` models a NULL `wav_enhanced_t*` and `buf_ok = false` a NULL
sample buffer (every stream our model constructs has a live `FILE*`, so the
`!wav->file` disjunct never fires separately). -/

def wav_enhanced_read_samples_16bit_mono_8khz (w? : Option WavEnh) (buf_ok : Bool)
    (num_samples : Nat) : Int × List Int × Option WavEnh :=
  match w? with
  | none => (-1, [], none)
  | some w =>
    if buf_ok then
      let r := wav_enhanced_read_core w num_samples
      ((r.1.length : Int), r.1, some r.2)
    else (-1, [], some w)

def wav_enhanced_write_samples (w? : Option WavW) (buf_ok : Bool) (samples : List Int) :
    Int × Option WavW :=
  match w? with
  | none => (-1, none)
  | some w =>
    if buf_ok then
      let r := wav_enhanced_write_core w samples
      ((r.1 : Int), some r.2)
    else (-1, some w)

/-- **C10.** Every public operation is total in the handle: called with a
NULL stream handle (or a NULL sample buffer) the read and write calls return
-1 without touching any state, and every info accessor returns 0. -/
theorem C10_null_guards :
    (∀ buf n, wav_enhanced_read_samples_16bit_mono_8khz none buf n = (-1, [], none)) ∧
    (∀ w n, wav_enhanced_read_samples_16bit_mono_8khz (some w) false n = (-1, [], some w)) ∧
    (∀ buf ss, wav_enhanced_write_samples none buf ss = (-1, none)) ∧
    (∀ w ss, wav_enhanced_write_samples (some w) false ss = (-1, some w)) ∧
    wav_enhanced_get_original_sample_rate none = 0 ∧
    wav_enhanced_get_original_channels none = 0 ∧
    wav_enhanced_get_original_bits_per_sample none = 0 ∧
    wav_enhanced_get_total_samples_8khz_mono none = 0 :=
  ⟨fun _ _ => rfl, fun _ _ => rfl, fun _ _ => rfl, fun _ _ => rfl, rfl, rfl, rfl, rfl⟩

/-! ## C7: unknown chunks are skipped transparently.

Serialization of chunks, and the fuel/shift machinery for the scanner. -/

theorem le32bytes_length (v : Nat) : (le32bytes v).length = 4 := rfl

theorem le16bytes_length (v : Nat) : (le16bytes v).length = 2 := rfl

theorem drop4_le32bytes (v : Nat) (l : List Nat) : (le32bytes v ++ l).drop 4 = l := rfl

theorem le32At_le32bytes (v : Nat) (l : List Nat) :
    le32At (le32bytes v ++ l) 0 = v % 4294967296 := by
  show (v % 256) + 256 * (v / 256 % 256) + 65536 * (v / 65536 % 256)
      + 16777216 * (v / 16777216 % 256) = v % 4294967296
  omega

theorem le32At_cons (a b c d : Nat) (l : List Nat) :
    le32At (a :: b :: c :: d :: l) 0 = a + 256 * b + 65536 * c + 16777216 * d := rfl

/-- One serialized chunk: tag, little-endian size, body (size = body length). -/
def chunkBytes (t : Nat) (body : List Nat) : List Nat :=
  le32bytes t ++ (le32bytes body.length ++ body)

/-- A list of serialized chunks. -/
def junkBytes (js : List (Nat × List Nat)) : List Nat :=
  (js.map fun j => chunkBytes j.1 j.2).flatten

/-- Unknown chunks: representable tags that are neither `fmt ` nor `data`,
and representable sizes. -/
def goodJunk (js : List (Nat × List Nat)) : Prop :=
  ∀ j ∈ js, j.1 < 4294967296 ∧ j.1 ≠ FOURCC_FMT ∧ j.1 ≠ FOURCC_DATA ∧
    j.2.length < 4294967296

instance : DecidablePred goodJunk := fun js => by unfold goodJunk; infer_instance

/-- Termination measure of the chunk loop. -/
def scanM (st : ScanSt) : Nat := if scanStop st then 0 else st.tail.length + 2

theorem scanChunks_stopped {st : ScanSt} (h : scanStop st = true) :
    ∀ f, scanChunks f st = st := by
  intro f
  cases f with
  | zero => rfl
  | succ f => simp [scanChunks, h]

/-- Bookkeeping relation for a reader step that wants to consume `n` bytes:
either it did (shortening the tail by at least `n`) or the EOF flag is set;
the tail never grows, `consumed` never shrinks, EOF is sticky, and the
chunk-discovery flags are untouched. -/
def RdOk (a b : ScanSt) (n : Nat) : Prop :=
  (b.tail.length + n ≤ a.tail.length ∨ b.eof = true) ∧
  b.tail.length ≤ a.tail.length ∧ a.consumed ≤ b.consumed ∧
  (a.eof = true → b.eof = true) ∧
  b.found_fmt = a.found_fmt ∧ b.found_data = a.found_data

theorem RdOk.trans {a b c : ScanSt} {n m : Nat} (h1 : RdOk a b n) (h2 : RdOk b c m) :
    RdOk a c (n + m) := by
  obtain ⟨hp1, ht1, hc1, he1, hf1, hd1⟩ := h1
  obtain ⟨hp2, ht2, hc2, he2, hf2, hd2⟩ := h2
  refine ⟨?_, by omega, by omega, fun h => he2 (he1 h), by rw [hf2, hf1], by rw [hd2, hd1]⟩
  rcases hp1 with hp1 | hp1
  · rcases hp2 with hp2 | hp2
    · left; omega
    · right; exact hp2
  · right; exact he2 hp1

theorem rd32_ok (st : ScanSt) : RdOk st (rd32 st).2 4 := by
  unfold rd32 RdOk
  split_ifs with h
  · exact ⟨Or.inl (by simp <;> omega), by simp <;> omega, by simp, by simp, rfl, rfl⟩
  · exact ⟨Or.inr rfl, by simp, by simp <;> omega, by simp, rfl, rfl⟩

theorem rd16_ok (st : ScanSt) : RdOk st (rd16 st).2 2 := by
  unfold rd16 RdOk
  split_ifs with h
  · exact ⟨Or.inl (by simp <;> omega), by simp <;> omega, by simp, by simp, rfl, rfl⟩
  · exact ⟨Or.inr rfl, by simp, by simp <;> omega, by simp, rfl, rfl⟩

theorem skipBytes_ok (n : Nat) (st : ScanSt) : RdOk st (skipBytes n st) 0 := by
  unfold skipBytes RdOk
  exact ⟨Or.inl (by simp), by simp, by simp, by simp, rfl, rfl⟩

/-- Progress and bookkeeping facts for the fmt-branch body. -/
theorem scanFmt_ok (csz : Nat) (st : ScanSt) :
    ((scanFmt csz st).tail.length + 16 ≤ st.tail.length ∨ (scanFmt csz st).eof = true) ∧
    (scanFmt csz st).tail.length ≤ st.tail.length ∧
    st.consumed ≤ (scanFmt csz st).consumed ∧
    (st.eof = true → (scanFmt csz st).eof = true) ∧
    (scanFmt csz st).found_data = st.found_data := by
  have hok : RdOk st (rd16 (rd16 (rd32 (rd32 (rd16 (rd16 st).2).2).2).2).2).2
      (2 + 2 + 4 + 4 + 2 + 2) :=
    (((((rd16_ok st).trans (rd16_ok _)).trans (rd32_ok _)).trans (rd32_ok _)).trans
      (rd16_ok _)).trans (rd16_ok _)
  simp only [scanFmt]
  split_ifs with h
  · obtain ⟨hp, ht, hcm, he, _, hfd⟩ := hok.trans
      (skipBytes_ok (csz - 16) (rd16 (rd16 (rd32 (rd32 (rd16 (rd16 st).2).2).2).2).2).2)
    refine ⟨?_, by omega, by omega, fun h2 => he h2, hfd⟩
    rcases hp with hp | hp
    · left
      omega
    · right
      exact hp
  · obtain ⟨hp, ht, hcm, he, _, hfd⟩ := hok
    refine ⟨?_, by omega, by omega, fun h2 => he h2, hfd⟩
    rcases hp with hp | hp
    · left
      omega
    · right
      exact hp

theorem scanIter_decrease {st : ScanSt} (h : scanStop st = false)
    (hc : (scanIter st).2 = true) : scanM (scanIter st).1 < scanM st := by
  have hM : scanM st = st.tail.length + 2 := by simp [scanM, h]
  rw [hM]
  have hok2 : RdOk st ((rd32 (rd32 st).2).2) (4 + 4) := (rd32_ok st).trans (rd32_ok _)
  simp only [scanIter] at hc ⊢
  split_ifs at hc ⊢ with h1 h2 h3
  · -- fmt branch
    obtain ⟨hp2, ht2, hcm2, he2, _, _⟩ := hok2
    obtain ⟨hpf, htf, hcmf, hef, _⟩ := scanFmt_ok ((rd32 (rd32 st).2).1) ((rd32 (rd32 st).2).2)
    unfold scanM
    split_ifs with hstop
    · omega
    · dsimp only
      rcases hpf with hpf | hpf
      · rcases hp2 with hp2 | hp2
        · omega
        · exfalso
          apply hstop
          simp [scanStop, hef hp2]
      · exfalso
        apply hstop
        simp [scanStop, hpf]
  · -- unknown chunk with skip
    obtain ⟨hp, _, _, _, _, _⟩ := hok2.trans
      (skipBytes_ok ((rd32 (rd32 st).2).1) ((rd32 (rd32 st).2).2))
    unfold scanM
    split_ifs with hstop
    · omega
    · rcases hp with hp | hp
      · dsimp only
        omega
      · exfalso
        apply hstop
        simp [scanStop, hp]
  · -- unknown chunk, zero size
    obtain ⟨hp, _, _, _, _, _⟩ := hok2
    unfold scanM
    split_ifs with hstop
    · omega
    · dsimp only
      rcases hp with hp | hp
      · omega
      · exfalso
        apply hstop
        simp [scanStop, hp]

/-- One unfolding of the chunk loop when it does not stop. -/
theorem scanChunks_step {st : ScanSt} (h : scanStop st = false) (f : Nat) :
    scanChunks (f + 1) st =
      if (scanIter st).2 then scanChunks f (scanIter st).1 else (scanIter st).1 := by
  simp [scanChunks, h]

/-- The scanner's result is independent of the fuel once the fuel reaches the
termination measure: the loop always stops by itself. -/
theorem scanChunks_fuel_high : ∀ f g st, scanM st ≤ f → scanM st ≤ g →
    scanChunks f st = scanChunks g st := by
  intro f
  induction f with
  | zero =>
    intro g st hf _
    have hstop : scanStop st = true := by
      by_contra hne
      have : scanM st = st.tail.length + 2 := by
        simp [scanM, Bool.of_not_eq_true hne]
      omega
    rw [scanChunks_stopped hstop, scanChunks_stopped hstop]
  | succ f ih =>
    intro g st hf hg
    by_cases hstop : scanStop st = true
    · rw [scanChunks_stopped hstop, scanChunks_stopped hstop]
    · have hstop' : scanStop st = false := Bool.of_not_eq_true hstop
      have hM : scanM st = st.tail.length + 2 := by simp [scanM, hstop']
      obtain ⟨g', rfl⟩ : ∃ g', g = g' + 1 := ⟨g - 1, by omega⟩
      rw [scanChunks_step hstop' f, scanChunks_step hstop' g']
      by_cases hc : (scanIter st).2 = true
      · rw [if_pos hc, if_pos hc]
        have hdec := scanIter_decrease hstop' hc
        exact ih g' (scanIter st).1 (by omega) (by omega)
      · have hc' : (scanIter st).2 = false := by simpa using hc
        rw [hc']
        simp

set_option maxHeartbeats 16000000 in
theorem scanIter_keeps_fd {st : ScanSt} (hc : (scanIter st).2 = true) :
    (scanIter st).1.found_data = st.found_data := by
  have hok2 : RdOk st ((rd32 (rd32 st).2).2) (4 + 4) := (rd32_ok st).trans (rd32_ok _)
  simp only [scanIter] at hc ⊢
  split_ifs at hc ⊢ with h1 h2 h3
  · try dsimp only
    rw [(scanFmt_ok ((rd32 (rd32 st).2).1) ((rd32 (rd32 st).2).2)).2.2.2.2]
    exact hok2.2.2.2.2.2
  · try dsimp only
    rw [(skipBytes_ok ((rd32 (rd32 st).2).1) ((rd32 (rd32 st).2).2)).2.2.2.2.2]
    exact hok2.2.2.2.2.2
  · try dsimp only
    exact hok2.2.2.2.2.2

theorem scanIter_consumed_ge (st : ScanSt) : st.consumed ≤ (scanIter st).1.consumed := by
  have hok2 : RdOk st ((rd32 (rd32 st).2).2) (4 + 4) := (rd32_ok st).trans (rd32_ok _)
  simp only [scanIter]
  split_ifs with h1 h2 h3
  · try dsimp only
    have hf := (scanFmt_ok ((rd32 (rd32 st).2).1) ((rd32 (rd32 st).2).2)).2.2.1
    have h2' := hok2.2.2.1
    omega
  · show st.consumed ≤ (scanData ((rd32 (rd32 st).2).1) ((rd32 (rd32 st).2).2)).consumed
    have h2' := hok2.2.2.1
    simpa [scanData] using h2'
  · try dsimp only
    have hf := (skipBytes_ok ((rd32 (rd32 st).2).1) ((rd32 (rd32 st).2).2)).2.2.1
    have h2' := hok2.2.2.1
    omega
  · try dsimp only
    exact hok2.2.2.1

theorem scanIter_break_data_rel {st : ScanSt} (hc : (scanIter st).2 = false) :
    st.consumed ≤ (scanIter st).1.data_rel ∧ (scanIter st).1.found_data = true := by
  have hok2 : RdOk st ((rd32 (rd32 st).2).2) (4 + 4) := (rd32_ok st).trans (rd32_ok _)
  simp only [scanIter] at hc ⊢
  split_ifs at hc ⊢ with h1 h2
  · try dsimp only
    exact ⟨by simpa [scanData] using hok2.2.2.1, rfl⟩

/-- After the chunk loop ran from a state where data was not yet found, the
recorded data position is at or after the starting position. -/
theorem scanChunks_data_rel_ge : ∀ f (st : ScanSt), st.found_data = false →
    (scanChunks f st).found_data = true → st.consumed ≤ (scanChunks f st).data_rel := by
  intro f
  induction f with
  | zero =>
    intro st h0 h1
    rw [show scanChunks 0 st = st from rfl] at h1
    rw [h0] at h1
    cases h1
  | succ f ih =>
    intro st h0 h1
    by_cases hstop : scanStop st = true
    · rw [scanChunks_stopped hstop] at h1 ⊢
      rw [h0] at h1
      cases h1
    · have hstop' : scanStop st = false := Bool.of_not_eq_true hstop
      rw [scanChunks_step hstop' f] at h1 ⊢
      by_cases hc : (scanIter st).2 = true
      · rw [if_pos hc] at h1 ⊢
        have hfd := scanIter_keeps_fd hc
        have hrec := ih (scanIter st).1 (by rw [hfd, h0]) h1
        have hcm := scanIter_consumed_ge st
        omega
      · have hc' : (scanIter st).2 = false := by simpa using hc
        rw [hc'] at h1 ⊢
        simp only [Bool.false_eq_true, if_false]
        exact (scanIter_break_data_rel hc').1

/-- Shift a scanner state's two position-valued fields by `d`.  The scan
commutes with this: its behaviour depends only on the remaining bytes. -/
def shiftSt (d : Nat) (st : ScanSt) : ScanSt :=
  { st with consumed := st.consumed + d, data_rel := st.data_rel + d }

theorem scanStop_shift (d : Nat) (st : ScanSt) : scanStop (shiftSt d st) = scanStop st := rfl

theorem rd32_shift (d : Nat) (st : ScanSt) :
    rd32 (shiftSt d st) = ((rd32 st).1, shiftSt d (rd32 st).2) := by
  simp only [rd32, shiftSt]
  split_ifs with h <;> simp_all [Prod.ext_iff, ScanSt.mk.injEq] <;> omega

theorem rd16_shift (d : Nat) (st : ScanSt) :
    rd16 (shiftSt d st) = ((rd16 st).1, shiftSt d (rd16 st).2) := by
  simp only [rd16, shiftSt]
  split_ifs with h <;> simp_all [Prod.ext_iff, ScanSt.mk.injEq] <;> omega

theorem skipBytes_shift (n d : Nat) (st : ScanSt) :
    skipBytes n (shiftSt d st) = shiftSt d (skipBytes n st) := by
  simp only [skipBytes, shiftSt]
  simp [ScanSt.mk.injEq]
  omega

theorem scanData_shift (csz d : Nat) (st : ScanSt) :
    scanData csz (shiftSt d st) = shiftSt d (scanData csz st) := rfl

theorem shiftSt_fmtUpd (d : Nat) (s : ScanSt) (v1 v2 v3 v4 : Nat) :
    ({ shiftSt d s with found_fmt := true, original_format := v1,
                        original_channels := v2, original_sample_rate := v3,
                        original_bits_per_sample := v4 } : ScanSt)
    = shiftSt d { s with found_fmt := true, original_format := v1,
                         original_channels := v2, original_sample_rate := v3,
                         original_bits_per_sample := v4 } := rfl

theorem scanFmt_shift (csz d : Nat) (st : ScanSt) :
    scanFmt csz (shiftSt d st) = shiftSt d (scanFmt csz st) := by
  simp only [scanFmt]
  rw [rd16_shift]
  dsimp only
  rw [rd16_shift]
  dsimp only
  rw [rd32_shift]
  dsimp only
  rw [rd32_shift]
  dsimp only
  rw [rd16_shift]
  dsimp only
  rw [rd16_shift]
  dsimp only
  split_ifs with h
  · rw [skipBytes_shift]
    exact shiftSt_fmtUpd _ _ _ _ _ _
  · exact shiftSt_fmtUpd _ _ _ _ _ _

theorem scanIter_shift (d : Nat) (st : ScanSt) :
    scanIter (shiftSt d st) = (shiftSt d (scanIter st).1, (scanIter st).2) := by
  simp only [scanIter]
  rw [rd32_shift]
  dsimp only
  rw [rd32_shift]
  dsimp only
  split_ifs with h1 h2 h3
  · dsimp only
    rw [scanFmt_shift]
  · dsimp only
    rw [scanData_shift]
  · dsimp only
    rw [skipBytes_shift]
  · dsimp only

theorem scanChunks_shift (d : Nat) : ∀ f (st : ScanSt),
    scanChunks f (shiftSt d st) = shiftSt d (scanChunks f st) := by
  intro f
  induction f with
  | zero => intro st; rfl
  | succ f ih =>
    intro st
    by_cases h : scanStop st = true
    · rw [scanChunks_stopped ((scanStop_shift d st).trans h),
        scanChunks_stopped h]
    · have h' : scanStop st = false := Bool.of_not_eq_true h
      rw [scanChunks_step ((scanStop_shift d st).trans h') f, scanChunks_step h' f]
      rw [scanIter_shift]
      dsimp only
      by_cases hc : (scanIter st).2 = true
      · rw [if_pos hc, if_pos hc, ih]
      · have hc' : (scanIter st).2 = false := by simpa using hc
        rw [hc']
        simp

/-- Overwrite the (as yet unused) `data_rel` field; the scan result depends
on it only until the data chunk is found. -/
def setDr (x : Nat) (st : ScanSt) : ScanSt := { st with data_rel := x }

theorem scanStop_setDr (x : Nat) (st : ScanSt) : scanStop (setDr x st) = scanStop st := rfl

theorem rd32_setDr (x : Nat) (st : ScanSt) :
    rd32 (setDr x st) = ((rd32 st).1, setDr x (rd32 st).2) := by
  simp only [rd32, setDr]
  split_ifs with h <;> rfl

theorem rd16_setDr (x : Nat) (st : ScanSt) :
    rd16 (setDr x st) = ((rd16 st).1, setDr x (rd16 st).2) := by
  simp only [rd16, setDr]
  split_ifs with h <;> rfl

theorem skipBytes_setDr (n x : Nat) (st : ScanSt) :
    skipBytes n (setDr x st) = setDr x (skipBytes n st) := rfl

theorem scanData_setDr (csz x : Nat) (st : ScanSt) :
    scanData csz (setDr x st) = scanData csz st := rfl

theorem setDr_fmtUpd (x : Nat) (s : ScanSt) (v1 v2 v3 v4 : Nat) :
    ({ setDr x s with found_fmt := true, original_format := v1,
                      original_channels := v2, original_sample_rate := v3,
                      original_bits_per_sample := v4 } : ScanSt)
    = setDr x { s with found_fmt := true, original_format := v1,
                       original_channels := v2, original_sample_rate := v3,
                       original_bits_per_sample := v4 } := rfl

theorem scanFmt_setDr (csz x : Nat) (st : ScanSt) :
    scanFmt csz (setDr x st) = setDr x (scanFmt csz st) := by
  simp only [scanFmt]
  rw [rd16_setDr]
  dsimp only
  rw [rd16_setDr]
  dsimp only
  rw [rd32_setDr]
  dsimp only
  rw [rd32_setDr]
  dsimp only
  rw [rd16_setDr]
  dsimp only
  rw [rd16_setDr]
  dsimp only
  split_ifs with h
  · rw [skipBytes_setDr]
    exact setDr_fmtUpd _ _ _ _ _ _
  · exact setDr_fmtUpd _ _ _ _ _ _

theorem scanIter_setDr_cont (x : Nat) (st : ScanSt) (hc : (scanIter st).2 = true) :
    scanIter (setDr x st) = (setDr x (scanIter st).1, true) := by
  simp only [scanIter] at hc ⊢
  rw [rd32_setDr]
  dsimp only
  rw [rd32_setDr]
  dsimp only
  split_ifs at hc ⊢ with h1 h2 h3
  · dsimp only
    rw [scanFmt_setDr]
  · dsimp only
    rw [skipBytes_setDr]
  · dsimp only

theorem scanIter_setDr_break (x : Nat) (st : ScanSt) (hc : (scanIter st).2 = false) :
    scanIter (setDr x st) = scanIter st := by
  simp only [scanIter] at hc ⊢
  rw [rd32_setDr]
  dsimp only
  rw [rd32_setDr]
  dsimp only
  split_ifs at hc ⊢ with h1 h2
  · rw [scanData_setDr]

theorem scanChunks_setDr : ∀ f (x : Nat) (st : ScanSt), st.found_data = false →
    (scanChunks f (setDr x st) = setDr x (scanChunks f st) ∧
      (scanChunks f st).found_data = false) ∨
    (scanChunks f (setDr x st) = scanChunks f st ∧
      (scanChunks f st).found_data = true) := by
  intro f
  induction f with
  | zero =>
    intro x st h0
    exact Or.inl ⟨rfl, h0⟩
  | succ f ih =>
    intro x st h0
    by_cases h : scanStop st = true
    · rw [scanChunks_stopped ((scanStop_setDr x st).trans h), scanChunks_stopped h]
      exact Or.inl ⟨rfl, h0⟩
    · have h' : scanStop st = false := Bool.of_not_eq_true h
      rw [scanChunks_step ((scanStop_setDr x st).trans h') f, scanChunks_step h' f]
      by_cases hc : (scanIter st).2 = true
      · rw [scanIter_setDr_cont x st hc]
        dsimp only
        rw [if_pos hc, if_pos (rfl : true = true)]
        exact ih x (scanIter st).1 (by rw [scanIter_keeps_fd hc, h0])
      · have hc' : (scanIter st).2 = false := by simpa using hc
        rw [scanIter_setDr_break x st hc']
        have hfd := (scanIter_break_data_rel hc').2
        simp [hc', hfd]

/-! ## Claim C7: unknown chunks before fmt/data are skipped exactly -/

theorem rd32_cons (a b c2 d : Nat) (l : List Nat) (c : Nat) (e ff fd : Bool)
    (v1 v2 v3 v4 v5 v6 v7 : Nat) :
    rd32 ⟨a :: b :: c2 :: d :: l, c, e, ff, fd, v1, v2, v3, v4, v5, v6, v7⟩
    = (a + 256 * b + 65536 * c2 + 16777216 * d,
       ⟨l, c + 4, e, ff, fd, v1, v2, v3, v4, v5, v6, v7⟩) := by
  simp only [rd32]
  rw [if_pos (by simp only [List.length_cons]; omega)]
  rfl

/-- Reading 4 bytes at a position holding a serialized 32-bit value yields
that value reduced mod 2^32. -/
theorem rd32_le32bytes (v : Nat) (l : List Nat) (c : Nat) (e ff fd : Bool)
    (v1 v2 v3 v4 v5 v6 v7 : Nat) :
    rd32 ⟨le32bytes v ++ l, c, e, ff, fd, v1, v2, v3, v4, v5, v6, v7⟩
    = (v % 4294967296, ⟨l, c + 4, e, ff, fd, v1, v2, v3, v4, v5, v6, v7⟩) := by
  rw [show (le32bytes v ++ l : List Nat)
      = (v % 256) :: (v / 256 % 256) :: (v / 65536 % 256) :: (v / 16777216 % 256) :: l from rfl]
  rw [rd32_cons]
  simp only [Prod.mk.injEq]
  exact ⟨by omega, trivial⟩

/-- One unknown chunk sitting at the scan position is passed over whole:
the 8 header bytes are read and exactly `chunk_size` (= the body length)
bytes are skipped, and the loop continues. -/
theorem scanIter_junk (t : Nat) (body rest : List Nat) (ht1 : t < 4294967296)
    (ht2 : t ≠ FOURCC_FMT) (ht3 : t ≠ FOURCC_DATA) (hb : body.length < 4294967296)
    (c : Nat) (ff : Bool) (v1 v2 v3 v4 v5 v6 v7 : Nat) :
    scanIter ⟨chunkBytes t body ++ rest, c, false, ff, false, v1, v2, v3, v4, v5, v6, v7⟩
    = (⟨rest, c + 4 + 4 + body.length, false, ff, false, v1, v2, v3, v4, v5, v6, v7⟩,
       true) := by
  have hsplit : chunkBytes t body ++ rest
      = le32bytes t ++ (le32bytes body.length ++ (body ++ rest)) := by
    simp [chunkBytes, List.append_assoc]
  simp only [scanIter, hsplit]
  rw [rd32_le32bytes]
  dsimp only
  rw [rd32_le32bytes]
  dsimp only
  rw [Nat.mod_eq_of_lt ht1, Nat.mod_eq_of_lt hb]
  rw [if_neg ht2, if_neg ht3]
  by_cases h0 : 0 < body.length
  · rw [if_pos h0]
    simp only [skipBytes]
    rw [List.drop_left]
  · rw [if_neg h0]
    have hnil : body = [] := List.length_eq_zero.mp (by omega)
    subst hnil
    simp

theorem scanChunks_junk_one (t : Nat) (body rest : List Nat) (ht1 : t < 4294967296)
    (ht2 : t ≠ FOURCC_FMT) (ht3 : t ≠ FOURCC_DATA) (hb : body.length < 4294967296)
    (f c : Nat) (ff : Bool) (v1 v2 v3 v4 v5 v6 v7 : Nat) :
    scanChunks (f + 1) ⟨chunkBytes t body ++ rest, c, false, ff, false, v1, v2, v3, v4, v5, v6, v7⟩
    = scanChunks f ⟨rest, c + 4 + 4 + body.length, false, ff, false, v1, v2, v3, v4, v5, v6, v7⟩ := by
  rw [scanChunks_step (by simp [scanStop]) f]
  rw [scanIter_junk t body rest ht1 ht2 ht3 hb c ff v1 v2 v3 v4 v5 v6 v7]
  simp

theorem junkBytes_cons (j : Nat × List Nat) (js : List (Nat × List Nat)) :
    junkBytes (j :: js) = chunkBytes j.1 j.2 ++ junkBytes js := rfl

theorem chunkBytes_length (t : Nat) (body : List Nat) :
    (chunkBytes t body).length = 8 + body.length := by
  simp only [chunkBytes, List.length_append, le32bytes_length]
  omega

theorem junkBytes_length_ge (js : List (Nat × List Nat)) :
    js.length ≤ (junkBytes js).length := by
  induction js with
  | nil => simp [junkBytes]
  | cons j js ih =>
    rw [junkBytes_cons]
    simp only [List.length_append, List.length_cons, chunkBytes_length]
    omega

/-- A whole run of unknown chunks at the scan position is passed over,
advancing `ftell` by exactly its serialized length, using one loop iteration
per chunk. -/
theorem scanChunks_junkBytes : ∀ js : List (Nat × List Nat), goodJunk js →
    ∀ (f c : Nat) (rest : List Nat) (ff : Bool) (v1 v2 v3 v4 v5 v6 v7 : Nat),
    scanChunks (js.length + f)
        ⟨junkBytes js ++ rest, c, false, ff, false, v1, v2, v3, v4, v5, v6, v7⟩
    = scanChunks f
        ⟨rest, c + (junkBytes js).length, false, ff, false, v1, v2, v3, v4, v5, v6, v7⟩ := by
  intro js
  induction js with
  | nil =>
    intro _ f c rest ff v1 v2 v3 v4 v5 v6 v7
    simp [junkBytes]
  | cons j js ih =>
    intro h f c rest ff v1 v2 v3 v4 v5 v6 v7
    obtain ⟨t, body⟩ := j
    obtain ⟨ht1, ht2, ht3, hb⟩ := h (t, body) (List.mem_cons_self _ _)
    have htail : goodJunk js := fun j hj => h j (List.mem_cons_of_mem _ hj)
    have hsplit : junkBytes ((t, body) :: js) ++ rest
        = chunkBytes t body ++ (junkBytes js ++ rest) := by
      rw [junkBytes_cons, List.append_assoc]
    have hc2 : (⟨rest, c + 4 + 4 + body.length + (junkBytes js).length, false, ff, false,
          v1, v2, v3, v4, v5, v6, v7⟩ : ScanSt)
        = ⟨rest, c + (junkBytes ((t, body) :: js)).length, false, ff, false,
          v1, v2, v3, v4, v5, v6, v7⟩ := by
      have hl : (junkBytes ((t, body) :: js)).length
          = 8 + body.length + (junkBytes js).length := by
        rw [junkBytes_cons]
        simp only [List.length_append, chunkBytes_length]
      rw [hl]
      have harith : c + 4 + 4 + body.length + (junkBytes js).length
          = c + (8 + body.length + (junkBytes js).length) := by omega
      rw [harith]
    simp only [List.length_cons]
    rw [show js.length + 1 + f = js.length + f + 1 from by omega]
    rw [hsplit]
    rw [scanChunks_junk_one t body (junkBytes js ++ rest) ht1 ht2 ht3 hb
      (js.length + f) c ff v1 v2 v3 v4 v5 v6 v7]
    rw [ih htail f (c + 4 + 4 + body.length) rest ff v1 v2 v3 v4 v5 v6 v7]
    rw [hc2]

/-- The 12-byte RIFF/WAVE preamble: `RIFF`, the declared overall size, `WAVE`. -/
def riffHdr (fsz : Nat) : List Nat :=
  [0x52, 0x49, 0x46, 0x46] ++ (le32bytes fsz ++ [0x57, 0x41, 0x56, 0x45])

theorem riffHdr_length (fsz : Nat) : (riffHdr fsz).length = 12 := by
  simp [riffHdr, le32bytes]

/-- `wav_enhanced_open_read` on a container with a syntactically valid
preamble: the header checks pass and the chunk loop starts right after the
form id, at `ftell = 12`. -/
theorem open_read_riffHdr (fsz : Nat) (rest : List Nat) :
    wav_enhanced_open_read (riffHdr fsz ++ rest)
    = openFromScan (riffHdr fsz ++ rest)
        (scanChunks (rest.length + 2)
          ⟨rest, 12, false, false, false, 0, 0, 0, 0, 0, 0, 0⟩) := by
  have hsplit : riffHdr fsz ++ rest
      = (0x52 : Nat) :: 0x49 :: 0x46 :: 0x46 ::
          (le32bytes fsz ++ ((0x57 : Nat) :: 0x41 :: 0x56 :: 0x45 :: rest)) := by
    simp [riffHdr]
  simp only [wav_enhanced_open_read]
  rw [hsplit]
  rw [rd32_cons]
  dsimp only
  rw [rd32_le32bytes]
  dsimp only
  rw [rd32_cons]
  dsimp only
  norm_num [FOURCC_RIFF, FOURCC_WAVE]

theorem drop_append_ge (l1 l2 : List Nat) (n : Nat) (h : l1.length ≤ n) :
    (l1 ++ l2).drop n = l2.drop (n - l1.length) := by
  rw [List.drop_append_eq_append_drop, List.drop_eq_nil_of_le h, List.nil_append]

/-- **C7.**  For every container that opens successfully and every list of
unknown chunks (representable tags other than `fmt `/`data`, representable
sizes) inserted between the WAVE form id and the original chunk sequence,
the open still succeeds: the scanner skips each unknown chunk by exactly its
declared `chunk_size` (8 header bytes plus the declared size, totalling the
serialized length of the insertion), reaches the same format fields,
`total_samples` and `data_size`, stops at the data chunk without skipping
past it — both the final file position and the recorded data start move by
exactly the inserted length — and the bytes from the data start on (the data
region) are unchanged. -/
theorem C7_chunk_skip (fsz fsz' : Nat) (js : List (Nat × List Nat)) (rest : List Nat)
    (hjs : goodJunk js) (w0 : WavEnh)
    (h0 : wav_enhanced_open_read (riffHdr fsz ++ rest) = some w0) :
    ∃ w1, wav_enhanced_open_read (riffHdr fsz' ++ (junkBytes js ++ rest)) = some w1 ∧
      w1.original_format = w0.original_format ∧
      w1.original_channels = w0.original_channels ∧
      w1.original_sample_rate = w0.original_sample_rate ∧
      w1.original_bits_per_sample = w0.original_bits_per_sample ∧
      w1.total_samples = w0.total_samples ∧
      w1.data_size = w0.data_size ∧
      w1.data_start_pos = w0.data_start_pos + (junkBytes js).length ∧
      w1.filePos = w0.filePos + (junkBytes js).length ∧
      w1.fileBytes.drop w1.data_start_pos = w0.fileBytes.drop w0.data_start_pos := by
  rw [open_read_riffHdr] at h0
  simp only [openFromScan] at h0
  split_ifs at h0 with hfd
  · simp only [Option.some.injEq] at h0
    subst h0
    have hge := junkBytes_length_ge js
    have hM : scanM (⟨rest, 12, false, false, false, 0, 0, 0, 0, 0, 0, 0⟩ : ScanSt)
        = rest.length + 2 := rfl
    have hM1 : scanM (⟨rest, 12, false, false, false, 0, 0, 0, 0, 0, 0, 0⟩ : ScanSt)
        ≤ (junkBytes js).length - js.length + (rest.length + 2) := by omega
    have hM2 : scanM (⟨rest, 12, false, false, false, 0, 0, 0, 0, 0, 0, 0⟩ : ScanSt)
        ≤ rest.length + 2 := by omega
    rw [open_read_riffHdr fsz' (junkBytes js ++ rest)]
    have hfuel : (junkBytes js ++ rest).length + 2
        = js.length + ((junkBytes js).length - js.length + (rest.length + 2)) := by
      simp only [List.length_append]
      omega
    rw [hfuel]
    rw [scanChunks_junkBytes js hjs ((junkBytes js).length - js.length + (rest.length + 2))
      12 rest false 0 0 0 0 0 0 0]
    rw [show (⟨rest, 12 + (junkBytes js).length, false, false, false,
          0, 0, 0, 0, 0, 0, 0⟩ : ScanSt)
        = setDr 0 (shiftSt (junkBytes js).length
            ⟨rest, 12, false, false, false, 0, 0, 0, 0, 0, 0, 0⟩) from rfl]
    rcases scanChunks_setDr ((junkBytes js).length - js.length + (rest.length + 2)) 0
        (shiftSt (junkBytes js).length
          ⟨rest, 12, false, false, false, 0, 0, 0, 0, 0, 0, 0⟩) rfl with
      ⟨heq, hfd2⟩ | ⟨heq, hfd2⟩
    · exfalso
      rw [scanChunks_shift] at hfd2
      have hfd3 : (scanChunks ((junkBytes js).length - js.length + (rest.length + 2))
          (⟨rest, 12, false, false, false, 0, 0, 0, 0, 0, 0, 0⟩ : ScanSt)).found_data
          = false := hfd2
      rw [scanChunks_fuel_high ((junkBytes js).length - js.length + (rest.length + 2))
        (rest.length + 2) _ hM1 hM2] at hfd3
      rw [hfd.2] at hfd3
      exact Bool.noConfusion hfd3
    · rw [heq, scanChunks_shift,
        scanChunks_fuel_high ((junkBytes js).length - js.length + (rest.length + 2))
          (rest.length + 2) _ hM1 hM2]
      set F := scanChunks (rest.length + 2)
        (⟨rest, 12, false, false, false, 0, 0, 0, 0, 0, 0, 0⟩ : ScanSt) with hF
      have hcond : (shiftSt (junkBytes js).length F).found_fmt = true ∧
          (shiftSt (junkBytes js).length F).found_data = true := hfd
      have hdr12 : 12 ≤ F.data_rel := by
        rw [hF]
        exact scanChunks_data_rel_ge (rest.length + 2) _ rfl (by rw [← hF]; exact hfd.2)
      have hopen : openFromScan (riffHdr fsz' ++ (junkBytes js ++ rest))
          (shiftSt (junkBytes js).length F)
          = some { fileBytes := riffHdr fsz' ++ (junkBytes js ++ rest)
                   filePos := F.consumed + (junkBytes js).length
                   original_format := F.original_format
                   original_channels := F.original_channels
                   original_sample_rate := F.original_sample_rate
                   original_bits_per_sample := F.original_bits_per_sample
                   total_samples := F.total_samples
                   samples_read := 0
                   data_start_pos := F.data_rel + (junkBytes js).length
                   data_size := F.data_size
                   resample_ratio := (F.original_sample_rate : ℚ) / 8000
                   resample_phase := 0
                   resample_buffer_size := 4096 } := by
        simp only [openFromScan]
        rw [if_pos hcond]
        rfl
      refine ⟨_, hopen, rfl, rfl, rfl, rfl, rfl, rfl, rfl, rfl, ?_⟩
      dsimp only
      have h1 : (riffHdr fsz').length ≤ F.data_rel + (junkBytes js).length := by
        rw [riffHdr_length]
        omega
      have h2 : (riffHdr fsz).length ≤ F.data_rel := by
        rw [riffHdr_length]
        omega
      rw [drop_append_ge _ _ _ h1, drop_append_ge _ _ _ h2, riffHdr_length, riffHdr_length]
      have h3 : (junkBytes js).length ≤ F.data_rel + (junkBytes js).length - 12 := by omega
      rw [drop_append_ge _ _ _ h3]
      congr 1
      omega

/-- The chunk area of a concrete well-formed 8000 Hz mono 16-bit container
with 4 data bytes, used as the C7 witness input. -/
def C7rest : List Nat :=
  [0x66, 0x6D, 0x74, 0x20] ++ le32bytes 16 ++ le16bytes 1 ++ le16bytes 1 ++
  le32bytes 8000 ++ le32bytes 16000 ++ le16bytes 2 ++ le16bytes 16 ++
  [0x64, 0x61, 0x74, 0x61] ++ le32bytes 4 ++ [0, 0, 0, 0]

/-- The stream state opening that container yields. -/
def wC7 : WavEnh :=
  { fileBytes := riffHdr 36 ++ C7rest
    filePos := 44
    original_format := 1
    original_channels := 1
    original_sample_rate := 8000
    original_bits_per_sample := 16
    total_samples := 2
    samples_read := 0
    data_start_pos := 44
    data_size := 4
    resample_ratio := ((8000 : Nat) : ℚ) / 8000
    resample_phase := 0
    resample_buffer_size := 4096 }

/-- Witness for `C7_chunk_skip`: a concrete container and one inserted
11-byte `JUNK` chunk (3 declared body bytes). -/
theorem C7_chunk_skip_witness :
    ∃ w1, wav_enhanced_open_read
        (riffHdr 47 ++ (junkBytes [(0x4B4E554A, [9, 9, 9])] ++ C7rest)) = some w1 ∧
      w1.original_format = wC7.original_format ∧
      w1.original_channels = wC7.original_channels ∧
      w1.original_sample_rate = wC7.original_sample_rate ∧
      w1.original_bits_per_sample = wC7.original_bits_per_sample ∧
      w1.total_samples = wC7.total_samples ∧
      w1.data_size = wC7.data_size ∧
      w1.data_start_pos = wC7.data_start_pos + (junkBytes [(0x4B4E554A, [9, 9, 9])]).length ∧
      w1.filePos = wC7.filePos + (junkBytes [(0x4B4E554A, [9, 9, 9])]).length ∧
      w1.fileBytes.drop w1.data_start_pos = wC7.fileBytes.drop wC7.data_start_pos :=
  C7_chunk_skip 36 47 [(0x4B4E554A, [9, 9, 9])] C7rest (by decide) wC7 rfl

end Codec2Wav
